import Mathlib

/-!
Verification of the yastn symmetric block-sparse tensor contraction engine
(src/yastn/tensor/_contractions.py) against its specification.

The embedding models tensors with abelian U(1)^k symmetry: a charge is a
fixed-length integer vector, a tensor is a list of leg signatures, a total
charge, a charge-sorted list of blocks (charge tuple and dimensions per leg)
and a flat dense buffer.  Legs are trivially fused (meta and hard fusion
descriptors are trivial), matching the common configuration; consequently the
mask paths (needs_mask) are never taken, as in the source for trivially fused
legs.  Dense numeric work is delegated in the source to an external backend
(spec section 6); backend calls that produce fresh buffers are modelled as
buffers of the declared size, while the in-place sign flips of swap_gate,
which the source performs itself, are modelled exactly.
-/

set_option maxHeartbeats 1000000

namespace Yastn

/-- Failure of the contraction engine, identified by the message text of the
YastnError raised in the source. -/
inductive Err where
  | msg : String → Err
deriving DecidableEq

/-- Modelled from the spec: StructuralMismatch raised by the signature test
of the external test module when contracted legs have incompatible
signatures. -/
def errSign : Err := .msg "Signatures do not match."

/-- Modelled from the spec: StructuralMismatch raised by the external
compatibility test when two tensors carry different symmetry
configurations. -/
def errCombine : Err := .msg "Tensors cannot be combined."

/-- DimensionMismatch message raised by tensordot, vdot and trace. -/
def errBond : Err := .msg "Bond dimensions do not match."

/-- LabelingError of swap_gate for an odd number of grouped legs. -/
def errSwapOdd : Err := .msg "Odd number of elements in axes. Elements of axes should come in pairs."

/-- LabelingError of swap_gate when a pair swaps a leg with itself. -/
def errSwapSame : Err := .msg "Cannot swap the same index."

/-- LabelingError of trace when the two axis groups overlap. -/
def errTraceSame : Err := .msg "The same axis in axes[0] and axes[1]."

/-- LabelingError of the planner for labels out of the range (-256, 256). -/
def errNconRange : Err := .msg "ncon requires indices to be between -256 and 256."

/-- LabelingError of the planner when a popped pair of edge labels differs. -/
def errNconMatch : Err := .msg "Indices of legs to contract do not match."

/-- LabelingError of the planner for traces queued after a tensordot. -/
def errNconOrder : Err := .msg "Likely inefficient order of contractions. Do all traces before tensordot. Call all axes connecting two tensors one after another."

/-- LabelingError of the planner for a repeated non-positive label. -/
def errNconRepeated : Err := .msg "Repeated non-positive (outgoing) index is ambiguous."

/-- LabelingError of ncon when the tensor and index lists have different lengths. -/
def errNconNum : Err := .msg "Number of tensors and indices do not match."

/-- LabelingError of ncon when a tensor has a different number of legs than
its index tuple. -/
def errNconLegs : Err := .msg "Number of legs of one of the tensors do not match provided indices."

/-- Failed internal assertion of _meta_tensordot. -/
def errAssert : Err := .msg "This should not have happend"

/-- A pop from an exhausted edge list; unreachable for planner inputs that
contain the sentinel, modelling the list discipline of the source. -/
def errPop : Err := .msg "pop from empty list"

/-- Einsum: more than one separator in the subscripts. -/
def errEinsumSep : Err := .msg "Subscript should have at most one separator ->"

/-- Einsum: a non-alphabetic index character. -/
def errEinsumAlpha : Err := .msg "Only alphabetic characters can be used to index legs."

/-- Einsum: a repeated index after the separator. -/
def errEinsumRepeat : Err := .msg "Repeated index after ->"

/-- Einsum: the contraction order does not cover all contracted indices. -/
def errEinsumOrder : Err := .msg "order does not cover all contracted indices"

/-! ### Strict orders on charge vectors and block keys

The source keeps block collections sorted by their (flattened, lexicographic)
charge tuples.  The embedding keeps charge vectors nested, ordered by the
corresponding nested lexicographic order, which coincides with the flattened
order on the fixed-shape tuples of well-formed tensors. -/

/-- Lexicographic strict order on lists, lifted from a strict order on
elements given as a Boolean comparison. -/
def listLtW (ltE : α → α → Bool) : List α → List α → Bool
  | [], [] => false
  | [], _ :: _ => true
  | _ :: _, [] => false
  | x :: xs, y :: ys => if ltE x y then true else if ltE y x then false else listLtW ltE xs ys

/-- Lexicographic strict order on pairs from strict orders on the components. -/
def pairLtW (ltA : α → α → Bool) (ltB : β → β → Bool) (p q : α × β) : Bool :=
  if ltA p.1 q.1 then true else if ltA q.1 p.1 then false else ltB p.2 q.2

/-- A Boolean comparison that is a strict total order. -/
structure StrictOrd (ltE : α → α → Bool) : Prop where
  asymm : ∀ x y, ltE x y = true → ltE y x = false
  trans : ∀ x y z, ltE x y = true → ltE y z = true → ltE x z = true
  conn : ∀ x y, ltE x y = false → ltE y x = false → x = y

theorem StrictOrd.irrefl {ltE : α → α → Bool} (h : StrictOrd ltE) (x : α) : ltE x x = false := by
  by_cases hx : ltE x x = true
  · have h2 := h.asymm x x hx
    rw [hx] at h2
    exact absurd h2 (by decide)
  · simpa using hx

theorem listLtW_strictOrd {ltE : α → α → Bool} (h : StrictOrd ltE) : StrictOrd (listLtW ltE) := by
  constructor
  · intro x
    induction x with
    | nil => intro y hy; cases y with
      | nil => simp [listLtW] at hy
      | cons b ys => simp [listLtW]
    | cons a xs ih =>
      intro y hy
      cases y with
      | nil => simp [listLtW] at hy
      | cons b ys =>
        simp only [listLtW] at hy ⊢
        by_cases hab : ltE a b = true
        · simp [hab, h.asymm a b hab]
        · simp only [Bool.not_eq_true] at hab
          by_cases hba : ltE b a = true
          · simp [hab, hba] at hy
          · simp only [Bool.not_eq_true] at hba
            simp only [hab, hba, if_false] at hy ⊢
            exact ih ys hy
  · intro x
    induction x with
    | nil =>
      intro y z hy hz
      cases y with
      | nil => simp [listLtW] at hy
      | cons b ys =>
        cases z with
        | nil => simp [listLtW] at hz
        | cons c zs => simp [listLtW]
    | cons a xs ih =>
      intro y z hy hz
      cases y with
      | nil => simp [listLtW] at hy
      | cons b ys =>
        cases z with
        | nil => simp [listLtW] at hz
        | cons c zs =>
          simp only [listLtW] at hy hz ⊢
          by_cases hab : ltE a b = true <;> by_cases hbc : ltE b c = true
          · simp [h.trans a b c hab hbc]
          · simp only [Bool.not_eq_true] at hbc
            by_cases hcb : ltE c b = true
            · simp [hab, hbc, hcb] at hz
            · simp only [Bool.not_eq_true] at hcb
              have : b = c := h.conn b c hbc hcb
              subst this
              simp [hab]
          · simp only [Bool.not_eq_true] at hab
            by_cases hba : ltE b a = true
            · simp [hab, hba] at hy
            · simp only [Bool.not_eq_true] at hba
              have : a = b := h.conn a b hab hba
              subst this
              simp [hbc]
          · simp only [Bool.not_eq_true] at hab hbc
            by_cases hba : ltE b a = true
            · simp [hab, hba] at hy
            · by_cases hcb : ltE c b = true
              · simp [hbc, hcb] at hz
              · simp only [Bool.not_eq_true] at hba hcb
                have hab2 : a = b := h.conn a b hab hba
                subst hab2
                simp only [hab, hba, if_false] at hy hz ⊢
                simp only [hbc, hcb, if_false] at hz ⊢
                exact ih ys zs hy hz
  · intro x
    induction x with
    | nil =>
      intro y h1 h2
      cases y with
      | nil => rfl
      | cons b ys => simp [listLtW] at h1
    | cons a xs ih =>
      intro y h1 h2
      cases y with
      | nil => simp [listLtW] at h2
      | cons b ys =>
        simp only [listLtW] at h1 h2
        by_cases hab : ltE a b = true
        · simp [hab] at h1
        · simp only [Bool.not_eq_true] at hab
          by_cases hba : ltE b a = true
          · simp [hba] at h2
          · simp only [Bool.not_eq_true] at hba
            have hae : a = b := h.conn a b hab hba
            subst hae
            simp only [hab, if_false, h.irrefl] at h1 h2
            rw [ih ys h1 h2]

theorem pairLtW_strictOrd {ltA : α → α → Bool} {ltB : β → β → Bool}
    (hA : StrictOrd ltA) (hB : StrictOrd ltB) : StrictOrd (pairLtW ltA ltB) := by
  constructor
  · intro x y hxy
    simp only [pairLtW] at hxy ⊢
    by_cases h1 : ltA x.1 y.1 = true
    · simp [h1, hA.asymm _ _ h1]
    · simp only [Bool.not_eq_true] at h1
      by_cases h2 : ltA y.1 x.1 = true
      · simp [h1, h2] at hxy
      · simp only [Bool.not_eq_true] at h2
        simp only [h1, h2, if_false] at hxy ⊢
        simp [hB.asymm _ _ hxy]
  · intro x y z hxy hyz
    simp only [pairLtW] at hxy hyz ⊢
    by_cases h1 : ltA x.1 y.1 = true <;> by_cases h2 : ltA y.1 z.1 = true
    · simp [hA.trans _ _ _ h1 h2]
    · simp only [Bool.not_eq_true] at h2
      by_cases h3 : ltA z.1 y.1 = true
      · simp [h2, h3] at hyz
      · simp only [Bool.not_eq_true] at h3
        have : y.1 = z.1 := hA.conn _ _ h2 h3
        rw [← this]
        simp [h1]
    · simp only [Bool.not_eq_true] at h1
      by_cases h3 : ltA y.1 x.1 = true
      · simp [h1, h3] at hxy
      · simp only [Bool.not_eq_true] at h3
        have : x.1 = y.1 := hA.conn _ _ h1 h3
        rw [this]
        simp [h2]
    · simp only [Bool.not_eq_true] at h1 h2
      by_cases h3 : ltA y.1 x.1 = true
      · simp [h1, h3] at hxy
      · by_cases h4 : ltA z.1 y.1 = true
        · simp [h2, h4] at hyz
        · simp only [Bool.not_eq_true] at h3 h4
          have e1 : x.1 = y.1 := hA.conn _ _ h1 h3
          have e2 : y.1 = z.1 := hA.conn _ _ h2 h4
          simp only [h1, h3, if_false] at hxy
          simp only [h2, h4, if_false] at hyz
          rw [e1, e2]
          simp [hA.irrefl, hB.trans _ _ _ hxy hyz]
  · intro x y h1 h2
    simp only [pairLtW] at h1 h2
    by_cases ha : ltA x.1 y.1 = true
    · simp [ha] at h1
    · simp only [Bool.not_eq_true] at ha
      by_cases hb : ltA y.1 x.1 = true
      · simp [hb] at h2
      · simp only [Bool.not_eq_true] at hb
        have e1 : x.1 = y.1 := hA.conn _ _ ha hb
        simp only [ha, hb, if_false] at h1 h2
        have e2 : x.2 = y.2 := hB.conn _ _ h1 h2
        exact Prod.ext e1 e2

/-- Strict order on integers as a Boolean comparison. -/
def intLt (x y : Int) : Bool := decide (x < y)

theorem intLt_strictOrd : StrictOrd intLt := by
  constructor
  · intro x y h
    simp only [intLt, decide_eq_true_eq] at h
    simp [intLt, le_of_lt h]
  · intro x y z h1 h2
    simp only [intLt, decide_eq_true_eq] at h1 h2 ⊢
    exact lt_trans h1 h2
  · intro x y h1 h2
    simp only [intLt, decide_eq_false_iff_not, not_lt] at h1 h2
    exact le_antisymm h2 h1

/-- Strict order on naturals as a Boolean comparison. -/
def natLt (x y : Nat) : Bool := decide (x < y)

theorem natLt_strictOrd : StrictOrd natLt := by
  constructor
  · intro x y h
    simp only [natLt, decide_eq_true_eq] at h
    simp [natLt, Nat.le_of_lt h]
  · intro x y z h1 h2
    simp only [natLt, decide_eq_true_eq] at h1 h2 ⊢
    exact Nat.lt_trans h1 h2
  · intro x y h1 h2
    simp only [natLt, decide_eq_false_iff_not, Nat.not_lt] at h1 h2
    exact Nat.le_antisymm h2 h1

/-- Lexicographic order on a single charge vector. -/
def chargeLt : List Int → List Int → Bool := listLtW intLt

theorem chargeLt_strictOrd : StrictOrd chargeLt := listLtW_strictOrd intLt_strictOrd

/-- Lexicographic order on a block charge tuple (one charge vector per leg). -/
def rowLt : List (List Int) → List (List Int) → Bool := listLtW chargeLt

theorem rowLt_strictOrd : StrictOrd rowLt := listLtW_strictOrd chargeLt_strictOrd

/-- Lexicographic order on per-leg dimension tuples. -/
def dimsLt : List Nat → List Nat → Bool := listLtW natLt

theorem dimsLt_strictOrd : StrictOrd dimsLt := listLtW_strictOrd natLt_strictOrd

/-- Order on (charge tuple, dimension tuple) block keys. -/
def blockLt : (List (List Int) × List Nat) → (List (List Int) × List Nat) → Bool :=
  pairLtW rowLt dimsLt

theorem blockLt_strictOrd : StrictOrd blockLt := pairLtW_strictOrd rowLt_strictOrd dimsLt_strictOrd

/-- Order on merged (row charge, column charge) pairs. -/
def mergedLt : (List Int × List Int) → (List Int × List Int) → Bool :=
  pairLtW chargeLt chargeLt

theorem mergedLt_strictOrd : StrictOrd mergedLt := pairLtW_strictOrd chargeLt_strictOrd chargeLt_strictOrd

/-- The non-strict order associated with a Boolean strict comparison, the form
consumed by insertion sort. -/
def leB (ltE : α → α → Bool) (x y : α) : Prop := ltE y x = false

instance leB_decidable (ltE : α → α → Bool) : DecidableRel (leB ltE) := by
  intro x y
  unfold leB
  infer_instance

theorem leB_isTotal {ltE : α → α → Bool} (h : StrictOrd ltE) : IsTotal α (leB ltE) := by
  constructor
  intro x y
  unfold leB
  cases hxy : ltE y x
  · exact Or.inl rfl
  · exact Or.inr (h.asymm y x hxy)

theorem leB_isTrans {ltE : α → α → Bool} (h : StrictOrd ltE) : IsTrans α (leB ltE) := by
  constructor
  intro x y z h1 h2
  unfold leB at h1 h2 ⊢
  by_cases hzx : ltE z x = true
  · by_cases hxy : ltE x y = true
    · have h3 := h.trans z x y hzx hxy
      rw [h2] at h3
      exact absurd h3 (by decide)
    · simp only [Bool.not_eq_true] at hxy
      have exy : x = y := h.conn x y hxy h1
      subst exy
      rw [h2] at hzx
      exact absurd hzx (by decide)
  · simpa using hzx

theorem leB_isAntisymm {ltE : α → α → Bool} (h : StrictOrd ltE) : IsAntisymm α (leB ltE) := by
  constructor
  intro x y h1 h2
  exact h.conn x y h2 h1

/-- Sorted duplicate-free list of the elements of l, in the order given by the
comparison; the canonical charge-sorted collection form of the source. -/
def sortedDedup [DecidableEq α] (ltE : α → α → Bool) (l : List α) : List α :=
  List.insertionSort (leB ltE) l.dedup

theorem sortedDedup_nodup [DecidableEq α] (ltE : α → α → Bool) (l : List α) :
    (sortedDedup ltE l).Nodup := by
  unfold sortedDedup
  exact (List.perm_insertionSort (leB ltE) l.dedup).nodup_iff.mpr l.nodup_dedup

theorem sortedDedup_sorted [DecidableEq α] {ltE : α → α → Bool} (h : StrictOrd ltE) (l : List α) :
    List.Sorted (leB ltE) (sortedDedup ltE l) := by
  haveI := leB_isTotal h
  haveI := leB_isTrans h
  exact List.sorted_insertionSort (leB ltE) l.dedup

theorem sortedDedup_mem [DecidableEq α] (ltE : α → α → Bool) (l : List α) (x : α) :
    x ∈ sortedDedup ltE l ↔ x ∈ l := by
  unfold sortedDedup
  rw [(List.perm_insertionSort (leB ltE) l.dedup).mem_iff]
  exact List.mem_dedup

theorem sorted_nodup_eq_of_mem_iff [DecidableEq α] {ltE : α → α → Bool} (h : StrictOrd ltE)
    {l1 l2 : List α} (hn1 : l1.Nodup) (hn2 : l2.Nodup)
    (hs1 : List.Sorted (leB ltE) l1) (hs2 : List.Sorted (leB ltE) l2)
    (hm : ∀ x, x ∈ l1 ↔ x ∈ l2) : l1 = l2 := by
  haveI := leB_isAntisymm h
  exact List.eq_of_perm_of_sorted ((List.perm_ext_iff_of_nodup hn1 hn2).mpr hm) hs1 hs2

theorem sortedDedup_congr_mem [DecidableEq α] {ltE : α → α → Bool} (h : StrictOrd ltE)
    {l1 l2 : List α} (hm : ∀ x, x ∈ l1 ↔ x ∈ l2) :
    sortedDedup ltE l1 = sortedDedup ltE l2 := by
  refine sorted_nodup_eq_of_mem_iff h (sortedDedup_nodup ltE l1) (sortedDedup_nodup ltE l2)
    (sortedDedup_sorted h l1) (sortedDedup_sorted h l2) ?_
  intro x
  rw [sortedDedup_mem, sortedDedup_mem]
  exact hm x

/-! ### Charges, the U(1)^k symmetry, and tensors -/

/-- Component k of a charge vector. -/
def chargeAt (c : List Int) (k : Nat) : Int := c.getD k 0

/-- Signature-weighted sum of component k of a list of charges. -/
def fuseSum (charges : List (List Int)) (signatures : List Int) (k : Nat) : Int :=
  ((charges.zip signatures).map (fun p => p.2 * chargeAt p.1 k)).sum

/-- U(1)^k fuse rule of the symmetry interface (spec section 6), applied
componentwise as in the yastn U1 symmetry class: the fused charge is
new_signature times the signature-weighted sum of the charges. -/
def sym_fuse (nsym : Nat) (charges : List (List Int)) (signatures : List Int)
    (new_signature : Int) : List Int :=
  (List.range nsym).map (fun k => new_signature * fuseSum charges signatures k)

/-- The fermionic declaration of the configuration: absent (falsy), all
generators fermionic (True), or one flag per symmetry component. -/
inductive FermFlag where
  | off : FermFlag
  | all : FermFlag
  | flags : List Bool → FermFlag
deriving DecidableEq

/-- The per-component fermionic flags: (True,) * NSYM when the configuration
declares fermionic is True, else the declared tuple. -/
def fssOf (nsym : Nat) : FermFlag → List Bool
  | .off => List.replicate nsym false
  | .all => List.replicate nsym true
  | .flags fs => fs

/-- A symmetric block-sparse tensor over U(1)^nsym with trivially fused legs:
leg signatures s, total charge n, charge-sorted blocks (charge tuple t and
per-leg dimensions D per block), the flat dense buffer, and the fermionic
configuration flags. -/
structure Tensor where
  nsym : Nat
  s : List Int
  n : List Int
  t : List (List (List Int))
  D : List (List Nat)
  data : List Rat
  ferm : FermFlag
deriving DecidableEq

/-- Number of legs. -/
def Tensor.ndim (a : Tensor) : Nat := a.s.length

/-- Number of elements of a block with the given per-leg dimensions. -/
def prodD (d : List Nat) : Nat := d.foldl (fun x y => x * y) 1

/-- Helper for slicesOf: consecutive half-open ranges of the given sizes
starting at cur. -/
def slicesGo (lo : Nat) : List Nat → List (Nat × Nat)
  | [] => []
  | d :: ds => (lo, lo + d) :: slicesGo (lo + d) ds

/-- Block slices of the flat buffer, derived from the block dimensions: block
p occupies the half-open range given by the cumulative block sizes, matching
the slices field that the source maintains alongside the struct. -/
def slicesOf (D : List (List Nat)) : List (Nat × Nat) := slicesGo 0 (D.map prodD)

/-- Modelled from the spec: tensor conjugation (the conj method of the
missing single-tensor module) flips every leg signature and the total charge;
block charges and dimensions are unchanged and the dense buffer is complex
conjugated, the identity on the rational buffer model. -/
def Tensor.conj (a : Tensor) : Tensor :=
  { a with s := a.s.map (fun x => -x), n := sym_fuse a.nsym [a.n] [1] (-1) }

/-- Projection of a per-leg list onto the axis positions ixs, in order. -/
def proj (xs : List α) (ixs : List Nat) (dflt : α) : List α :=
  ixs.map (fun i => xs.getD i dflt)

/-! ### swap_gate -/

/-- Charge vector of a block on one leg. -/
def legCharge (tb : List (List Int)) (l : Nat) : List Int := tb.getD l []

/-- Componentwise parity (mod 2) of the summed charges of a block over a
group of legs: the rows t1, t2 computed by _meta_swap_gate. -/
def parityVec (nsym : Nat) (tb : List (List Int)) (legs : List Nat) : List Int :=
  (List.range nsym).map (fun k => (legs.map (fun l => chargeAt (legCharge tb l) k)).sum % 2)

/-- Sum of products of two parity rows over the symmetry components flagged
fermionic: np.sum(t1[:, fss] * t2[:, fss]) in _meta_swap_gate. -/
def fermDot (nsym : Nat) (fss : List Bool) (p1 p2 : List Int) : Int :=
  ((List.range nsym).map (fun k =>
    if fss.getD k false then (chargeAt p1 k) * (chargeAt p2 k) else 0)).sum

/-- Consecutive pairs of a list: zip(*(iaxes, iaxes)) over the unpacked axes. -/
def chunkPairs : List α → List (α × α)
  | x :: y :: rest => (x, y) :: chunkPairs rest
  | _ => []

/-- The per-pair loop of _meta_swap_gate: each pair must not swap a leg with
itself; per block, the fermionic parity products of the pair accumulate. -/
def swapPairs (nsym : Nat) (fss : List Bool) (t : List (List (List Int))) :
    List (List Nat × List Nat) → List Int → Except Err (List Int)
  | [], tp => .ok tp
  | (l1, l2) :: rest, tp =>
    if l1.inter l2 ≠ [] then .error errSwapSame
    else swapPairs nsym fss t rest
      (List.zipWith (fun x y => x + y) tp
        (t.map (fun tb => fermDot nsym fss (parityVec nsym tb l1) (parityVec nsym tb l2))))

/-- Which blocks to negate, following _meta_swap_gate: an even number of
grouped legs is required, and a block is negated when its accumulated parity
count is odd. -/
def _meta_swap_gate (t : List (List (List Int))) (nsym : Nat) (axes : List (List Nat))
    (fss : List Bool) : Except Err (List Bool) :=
  if axes.length % 2 = 1 then .error errSwapOdd
  else match swapPairs nsym fss t (chunkPairs axes) (List.replicate t.length 0) with
    | .error e => .error e
    | .ok tp => .ok (tp.map (fun x => decide (x % 2 = 1)))

/-- Helper for negSeg carrying the running index. -/
def negSegGo (lo hi : Nat) : Nat → List Rat → List Rat
  | _, [] => []
  | i, x :: xs => (if lo ≤ i ∧ i < hi then -x else x) :: negSegGo lo hi (i + 1) xs

/-- Negation of the slice [lo, hi) of the flat buffer, the in-place update
c._data[slice] = -1 * c._data[slice] of swap_gate. -/
def negSeg (d : List Rat) (sl : Nat × Nat) : List Rat := negSegGo sl.1 sl.2 0 d

/-- The block loop of swap_gate: negate the slice of every block whose swap
parity is odd. -/
def negateOdd (d : List Rat) (pairs : List ((Nat × Nat) × Bool)) : List Rat :=
  pairs.foldl (fun acc p => if p.2 then negSeg acc p.1 else acc) d

/-- swap_gate as in the source: a no-op for a non-fermionic configuration;
otherwise _meta_swap_gate selects the blocks whose data is negated on a clone
of the tensor, leaving all block metadata unchanged. -/
def swap_gate (a : Tensor) (axes : List (List Nat)) : Except Err Tensor :=
  if a.ferm = .off then .ok a
  else match _meta_swap_gate a.t a.nsym axes (fssOf a.nsym a.ferm) with
    | .error e => .error e
    | .ok tp => .ok { a with data := negateOdd a.data ((slicesOf a.D).zip tp) }

instance exceptDecEq {ε σ : Type} [DecidableEq ε] [DecidableEq σ] : DecidableEq (Except ε σ) :=
  fun x y =>
  match x, y with
  | .error e1, .error e2 =>
    if h : e1 = e2 then isTrue (by rw [h]) else
      isFalse (fun hc => h (Except.error.inj hc))
  | .error _, .ok _ => isFalse (fun hc => Except.noConfusion hc)
  | .ok _, .error _ => isFalse (fun hc => Except.noConfusion hc)
  | .ok a, .ok b =>
    if h : a = b then isTrue (by rw [h]) else
      isFalse (fun hc => h (Except.ok.inj hc))

/-! ### Pointwise description of the swap_gate sign flips -/

theorem negSegGo_getElem? (lo hi : Nat) (d : List Rat) : ∀ (i j : Nat),
    (negSegGo lo hi i d)[j]? =
      (d[j]?).map (fun x => if lo ≤ i + j ∧ i + j < hi then -x else x) := by
  induction d with
  | nil => intro i j; simp [negSegGo]
  | cons x xs ih =>
    intro i j
    cases j with
    | zero => simp [negSegGo]
    | succ j2 =>
      simp only [negSegGo, List.getElem?_cons_succ]
      rw [ih (i + 1) j2]
      have e : i + 1 + j2 = i + (j2 + 1) := by omega
      rw [e]

theorem negSeg_getElem? (d : List Rat) (sl : Nat × Nat) (j : Nat) :
    (negSeg d sl)[j]? = (d[j]?).map (fun x => if sl.1 ≤ j ∧ j < sl.2 then -x else x) := by
  have h := negSegGo_getElem? sl.1 sl.2 d 0 j
  simpa [negSeg] using h

/-- Number of negated slices covering buffer position j. -/
def flipCount (pairs : List ((Nat × Nat) × Bool)) (j : Nat) : Nat :=
  pairs.countP (fun p => p.2 && (decide (p.1.1 ≤ j) && decide (j < p.1.2)))

theorem negateOdd_getElem? (pairs : List ((Nat × Nat) × Bool)) (d : List Rat) (j : Nat) :
    (negateOdd d pairs)[j]? = (d[j]?).map (fun x => ((-1 : Rat) ^ flipCount pairs j) * x) := by
  induction pairs generalizing d with
  | nil => simp [negateOdd, flipCount]
  | cons p ps ih =>
    have step : negateOdd d (p :: ps) = negateOdd (if p.2 then negSeg d p.1 else d) ps := by
      simp [negateOdd]
    rw [step, ih]
    have hcount : flipCount (p :: ps) j =
        flipCount ps j + (if p.2 && (decide (p.1.1 ≤ j) && decide (j < p.1.2)) then 1 else 0) := by
      simp [flipCount, List.countP_cons]
    by_cases hp : p.2 = true
    · rw [if_pos hp, negSeg_getElem?]
      cases hd : d[j]? with
      | none => simp
      | some x =>
        simp only [Option.map_some']
        by_cases hin : p.1.1 ≤ j ∧ j < p.1.2
        · have : flipCount (p :: ps) j = flipCount ps j + 1 := by
            rw [hcount]; simp [hp, hin.1, hin.2]
          rw [this, if_pos hin]
          simp only [Option.map_some', Option.some.injEq]
          rw [pow_succ]
          ring
        · have : flipCount (p :: ps) j = flipCount ps j := by
            rw [hcount]
            have : (decide (p.1.1 ≤ j) && decide (j < p.1.2)) = false := by
              rcases Decidable.not_and_iff_or_not.mp hin with h1 | h1 <;> simp [h1]
            simp [this]
          rw [this, if_neg hin]
    · simp only [Bool.not_eq_true] at hp
      rw [if_neg (by simp [hp])]
      have : flipCount (p :: ps) j = flipCount ps j := by
        rw [hcount]; simp [hp]
      rw [this]

theorem negateOdd_involutive (d : List Rat) (pairs : List ((Nat × Nat) × Bool)) :
    negateOdd (negateOdd d pairs) pairs = d := by
  apply List.ext_getElem?
  intro j
  rw [negateOdd_getElem?, negateOdd_getElem?]
  cases hd : d[j]? with
  | none => simp
  | some x =>
    simp only [Option.map_some', Option.some.injEq]
    rw [← mul_assoc, ← mul_pow]
    norm_num

theorem slicesGo_length (lo : Nat) (ds : List Nat) : (slicesGo lo ds).length = ds.length := by
  induction ds generalizing lo with
  | nil => rfl
  | cons d ds2 ih => simp [slicesGo, ih]

theorem slicesGo_fst_ge (lo : Nat) (ds : List Nat) : ∀ sl ∈ slicesGo lo ds, lo ≤ sl.1 := by
  induction ds generalizing lo with
  | nil => intro sl h; simp [slicesGo] at h
  | cons d ds2 ih =>
    intro sl h
    simp only [slicesGo, List.mem_cons] at h
    rcases h with h | h
    · subst h; exact Nat.le_refl lo
    · exact Nat.le_trans (Nat.le_add_right lo d) (ih (lo + d) sl h)

theorem countP_slices (j : Nat) (ds : List Nat) (bs : List Bool) (lo p : Nat)
    (hp : p < ds.length) (hlen : bs.length = ds.length)
    (hj1 : ((slicesGo lo ds).getD p (0, 0)).1 ≤ j)
    (hj2 : j < ((slicesGo lo ds).getD p (0, 0)).2) :
    ((slicesGo lo ds).zip bs).countP
      (fun q => q.2 && (decide (q.1.1 ≤ j) && decide (j < q.1.2))) =
      if bs.getD p false then 1 else 0 := by
  induction ds generalizing lo p bs with
  | nil => simp at hp
  | cons d ds2 ih =>
    cases bs with
    | nil => simp at hlen
    | cons b bs2 =>
      simp only [slicesGo, List.zip_cons_cons, List.countP_cons]
      cases p with
      | zero =>
        simp only [slicesGo, List.getD_cons_zero] at hj1 hj2
        have htail : ((slicesGo (lo + d) ds2).zip bs2).countP
            (fun q => q.2 && (decide (q.1.1 ≤ j) && decide (j < q.1.2))) = 0 := by
          apply List.countP_eq_zero.mpr
          intro q hq
          have hmem := List.of_mem_zip hq
          have hge := slicesGo_fst_ge (lo + d) ds2 q.1 hmem.1
          have : ¬ (q.1.1 ≤ j) := by omega
          simp [this]
        rw [htail]
        have hhead : (b && (decide (lo ≤ j) && decide (j < lo + d))) = b := by
          simp [hj1, hj2]
        rw [hhead]
        simp [List.getD_cons_zero]
      | succ p2 =>
        simp only [slicesGo, List.getD_cons_succ] at hj1 hj2
        have hp2 : p2 < ds2.length := by simpa using hp
        have hsl : (slicesGo (lo + d) ds2).getD p2 (0, 0) ∈ slicesGo (lo + d) ds2 := by
          have hlt : p2 < (slicesGo (lo + d) ds2).length := by
            rw [slicesGo_length]; exact hp2
          rw [List.getD_eq_getElem _ _ hlt]
          exact List.getElem_mem hlt
        have hge := slicesGo_fst_ge (lo + d) ds2 _ hsl
        have hhead : (b && (decide (lo ≤ j) && decide (j < lo + d))) = false := by
          have : ¬ (j < lo + d) := by omega
          simp [this]
        rw [hhead]
        have hlen2 : bs2.length = ds2.length := by simpa using hlen
        rw [ih bs2 (lo + d) p2 hp2 hlen2 hj1 hj2]
        simp [List.getD_cons_succ]

theorem negateOdd_slices_getElem? (d : List Rat) (D : List (List Nat)) (bs : List Bool)
    (p j : Nat) (hp : p < D.length) (hlen : bs.length = D.length)
    (hj1 : ((slicesOf D).getD p (0, 0)).1 ≤ j) (hj2 : j < ((slicesOf D).getD p (0, 0)).2) :
    (negateOdd d ((slicesOf D).zip bs))[j]? =
      if bs.getD p false then (d[j]?).map (fun x => -x) else d[j]? := by
  rw [negateOdd_getElem?]
  have hc : flipCount ((slicesOf D).zip bs) j = if bs.getD p false then 1 else 0 := by
    unfold flipCount
    unfold slicesOf at hj1 hj2 ⊢
    exact countP_slices j (D.map prodD) bs 0 p (by simpa using hp) (by simpa using hlen) hj1 hj2
  by_cases hb : bs.getD p false = true
  · rw [hb] at hc
    simp only [hb, if_true] at hc ⊢
    rw [hc]
    cases d[j]? <;> simp
  · simp only [Bool.not_eq_true] at hb
    rw [hb] at hc
    simp only [hb, Bool.false_eq_true, if_false] at hc ⊢
    rw [hc]
    cases d[j]? <;> simp

/-! ### Claim theorems for swap_gate -/

/-- The parity that _meta_swap_gate assigns to block p of tensor a for a
single swapped pair (l1, l2): odd when the sum, over the symmetry components
flagged fermionic, of the products of the componentwise parities of the two
sides is odd. -/
def swapBlockParity (a : Tensor) (l1 l2 : List Nat) (p : Nat) : Bool :=
  decide ((fermDot a.nsym (fssOf a.nsym a.ferm) (parityVec a.nsym (a.t.getD p []) l1)
    (parityVec a.nsym (a.t.getD p []) l2)) % 2 = 1)

/-- Definition following the words of the specification (section 4.6): the
total fermionic parity of a block on one side of a swap pair is the sum mod 2
of the charge components flagged fermionic over the legs of that side.
Compare fermDot, the componentwise product sum the source computes. -/
def specTotalParity (nsym : Nat) (fss : List Bool) (tb : List (List Int))
    (legs : List Nat) : Int :=
  (((List.range nsym).map (fun k =>
    if fss.getD k false then (legs.map (fun l => chargeAt (legCharge tb l) k)).sum
    else 0)).sum) % 2

theorem zipWith_add_replicate_zero (l : List Int) :
    List.zipWith (fun x y => x + y) (List.replicate l.length 0) l = l := by
  induction l with
  | nil => rfl
  | cons x xs ih => simpa [List.replicate_succ] using ih

/-- C9: for every tensor and every swap specification accepted by swap_gate,
applying swap_gate twice with the same axes is the identity. -/
theorem swap_gate_involution (a c : Tensor) (axes : List (List Nat))
    (h : swap_gate a axes = .ok c) : swap_gate c axes = .ok a := by
  unfold swap_gate at h ⊢
  by_cases hf : a.ferm = .off
  · rw [if_pos hf] at h
    have hac : a = c := by cases h; rfl
    subst hac
    rw [if_pos hf]
  · rw [if_neg hf] at h
    cases hm : _meta_swap_gate a.t a.nsym axes (fssOf a.nsym a.ferm) with
    | error e => rw [hm] at h; cases h
    | ok tp =>
      rw [hm] at h
      have hc : c = { a with data := negateOdd a.data ((slicesOf a.D).zip tp) } := by
        cases h; rfl
      subst hc
      dsimp only
      rw [if_neg hf, hm]
      simp [negateOdd_involutive]

/-- Single block, two legs over U(1), both components fermionic, used as the
concrete fermionic tensor of the swap_gate witnesses. -/
def aC2w : Tensor :=
  { nsym := 1, s := [1, 1], n := [0], t := [[[1], [1]]], D := [[1, 1]],
    data := [2], ferm := .all }

/-- The image of aC2w under the swap gate on the pair (0, 1). -/
def cC2w : Tensor := { aC2w with data := [-2] }

theorem swap_gate_involution_witness :
    swap_gate aC2w [[0], [1]] = .ok cC2w ∧ swap_gate cC2w [[0], [1]] = .ok aC2w :=
  ⟨by decide, swap_gate_involution aC2w cC2w [[0], [1]] (by decide)⟩

/-- C2 (amended): for a fermionic tensor and a single swapped pair (l1, l2)
accepted by swap_gate, no block metadata changes, and the data of block p is
negated exactly when the sum over the fermionic-flagged symmetry components
of the product of the componentwise parities of the two sides is odd (for one
fermionic component this coincides with both total parities being odd). -/
theorem swap_gate_pair_sign (a c : Tensor) (l1 l2 : List Nat)
    (hlen : a.t.length = a.D.length) (hferm : a.ferm ≠ .off)
    (h : swap_gate a [l1, l2] = .ok c) :
    c.nsym = a.nsym ∧ c.s = a.s ∧ c.n = a.n ∧ c.t = a.t ∧ c.D = a.D ∧
    ∀ p j : Nat, p < a.D.length →
      ((slicesOf a.D).getD p (0, 0)).1 ≤ j → j < ((slicesOf a.D).getD p (0, 0)).2 →
      c.data[j]? = if swapBlockParity a l1 l2 p then (a.data[j]?).map (fun x => -x)
        else a.data[j]? := by
  unfold swap_gate at h
  rw [if_neg hferm] at h
  have hchunk : chunkPairs [l1, l2] = [(l1, l2)] := rfl
  by_cases hover : l1.inter l2 ≠ []
  · have hm : _meta_swap_gate a.t a.nsym [l1, l2] (fssOf a.nsym a.ferm) = .error errSwapSame := by
      unfold _meta_swap_gate
      rw [if_neg (by simp)]
      rw [hchunk]
      unfold swapPairs
      rw [if_pos hover]
    rw [hm] at h
    cases h
  · have hm : _meta_swap_gate a.t a.nsym [l1, l2] (fssOf a.nsym a.ferm) =
        .ok ((a.t.map (fun tb => fermDot a.nsym (fssOf a.nsym a.ferm)
          (parityVec a.nsym tb l1) (parityVec a.nsym tb l2))).map
            (fun x => decide (x % 2 = 1))) := by
      unfold _meta_swap_gate
      rw [if_neg (by simp)]
      rw [hchunk]
      unfold swapPairs
      rw [if_neg hover]
      unfold swapPairs
      have hl : a.t.length =
          (a.t.map (fun tb => fermDot a.nsym (fssOf a.nsym a.ferm)
            (parityVec a.nsym tb l1) (parityVec a.nsym tb l2))).length := by
        simp
      rw [hl, zipWith_add_replicate_zero]
    rw [hm] at h
    have hc : c = { a with data := negateOdd a.data ((slicesOf a.D).zip
        ((a.t.map (fun tb => fermDot a.nsym (fssOf a.nsym a.ferm)
          (parityVec a.nsym tb l1) (parityVec a.nsym tb l2))).map
            (fun x => decide (x % 2 = 1)))) } := by
      cases h; rfl
    subst hc
    refine ⟨rfl, rfl, rfl, rfl, rfl, ?_⟩
    intro p j hp hj1 hj2
    dsimp only
    rw [negateOdd_slices_getElem? a.data a.D _ p j hp (by simp [hlen]) hj1 hj2]
    have hgd : ((a.t.map (fun tb => fermDot a.nsym (fssOf a.nsym a.ferm)
        (parityVec a.nsym tb l1) (parityVec a.nsym tb l2))).map
          (fun x => decide (x % 2 = 1))).getD p false = swapBlockParity a l1 l2 p := by
      have hpt : p < a.t.length := by omega
      rw [List.getD_eq_getElem?_getD, List.getElem?_map, List.getElem?_map]
      rw [List.getElem?_eq_getElem hpt]
      simp only [Option.map_some', Option.getD_some]
      unfold swapBlockParity
      rw [List.getD_eq_getElem _ _ hpt]
    rw [hgd]

theorem swap_gate_pair_sign_witness :
    (aC2w.t.length = aC2w.D.length ∧ aC2w.ferm ≠ .off ∧
      swap_gate aC2w [[0], [1]] = .ok cC2w) ∧
    swapBlockParity aC2w [0] [1] 0 = true ∧ cC2w.data[0]? = some ((-2 : Rat)) := by
  refine ⟨⟨by decide, by decide, by decide⟩, by decide, ?_⟩
  have h := (swap_gate_pair_sign aC2w cC2w [0] [1] (by decide) (by decide)
    (by decide)).2.2.2.2.2 0 0 (by decide) (by decide) (by decide)
  rw [h]
  decide

/-- Two-leg tensor over U(1)^2 with both components fermionic and one block
of charge ((1,0),(0,1)): those totals are parity-odd on both legs, yet the
componentwise parity products cancel, so the source does not negate it. -/
def aC2x : Tensor :=
  { nsym := 2, s := [1, 1], n := [1, 1], t := [[[1, 0], [0, 1]]], D := [[1, 1]],
    data := [1], ferm := .all }

/-- C2 counterexample: the block of aC2x has odd total fermionic parity (in
the sense of the specification text) on both sides of the swap pair (0, 1),
yet swap_gate leaves its data unchanged rather than negating it. -/
theorem swap_gate_total_parity_cex :
    specTotalParity 2 [true, true] [[1, 0], [0, 1]] [0] = 1 ∧
    specTotalParity 2 [true, true] [[1, 0], [0, 1]] [1] = 1 ∧
    fssOf aC2x.nsym aC2x.ferm = [true, true] ∧
    swap_gate aC2x [[0], [1]] = .ok aC2x ∧
    aC2x.data = [(1 : Rat)] ∧ [(1 : Rat)] ≠ [(-1 : Rat)] := by decide

theorem swapPairs_overlap_error (nsym : Nat) (fss : List Bool) (t : List (List (List Int)))
    (ps : List (List Nat × List Nat)) (tp : List Int)
    (h : ∃ pr ∈ ps, pr.1.inter pr.2 ≠ []) :
    swapPairs nsym fss t ps tp = .error errSwapSame := by
  induction ps generalizing tp with
  | nil => simp at h
  | cons q qs ih =>
    obtain ⟨l1, l2⟩ := q
    by_cases hq : l1.inter l2 ≠ []
    · unfold swapPairs
      rw [if_pos hq]
    · unfold swapPairs
      rw [if_neg hq]
      apply ih
      obtain ⟨pr, hmem, hpr⟩ := h
      rcases List.mem_cons.mp hmem with he | hm
      · exact absurd (by rw [he] at hpr; exact hpr) hq
      · exact ⟨pr, hm, hpr⟩

/-- C8 (amended): for a tensor whose configuration declares fermionic
generators, swap_gate fails with the LabelingError for an odd number of
grouped legs, and with the LabelingError for swapping a leg against itself
when some swapped pair shares a leg. -/
theorem swap_gate_axes_errors (a : Tensor) (axes : List (List Nat)) (hferm : a.ferm ≠ .off) :
    (axes.length % 2 = 1 → swap_gate a axes = .error errSwapOdd) ∧
    ((∃ pr ∈ chunkPairs axes, pr.1.inter pr.2 ≠ []) → axes.length % 2 = 0 →
      swap_gate a axes = .error errSwapSame) := by
  constructor
  · intro hodd
    unfold swap_gate
    rw [if_neg hferm]
    have hm : _meta_swap_gate a.t a.nsym axes (fssOf a.nsym a.ferm) = .error errSwapOdd := by
      unfold _meta_swap_gate
      rw [if_pos hodd]
    rw [hm]
  · intro hover heven
    unfold swap_gate
    rw [if_neg hferm]
    have hm : _meta_swap_gate a.t a.nsym axes (fssOf a.nsym a.ferm) = .error errSwapSame := by
      unfold _meta_swap_gate
      rw [if_neg (by omega)]
      rw [swapPairs_overlap_error _ _ _ _ _ hover]
    rw [hm]

theorem swap_gate_axes_errors_witness :
    (aC2w.ferm ≠ .off ∧ [[0]].length % 2 = 1 ∧
      (∃ pr ∈ chunkPairs [[0], [0]], pr.1.inter pr.2 ≠ ([] : List Nat))) ∧
    swap_gate aC2w [[0]] = .error errSwapOdd ∧
    swap_gate aC2w [[0], [0]] = .error errSwapSame := by
  refine ⟨⟨by decide, by decide, by decide⟩, ?_, ?_⟩
  · exact (swap_gate_axes_errors aC2w [[0]] (by decide)).1 (by decide)
  · exact (swap_gate_axes_errors aC2w [[0], [0]] (by decide)).2 (by decide) (by decide)

/-- Non-fermionic tensor: swap_gate returns it unchanged without validating
the axes. -/
def aC8n : Tensor :=
  { nsym := 1, s := [1], n := [0], t := [[[0]]], D := [[1]], data := [0], ferm := .off }

/-- C8 counterexample: for a tensor without fermionic generators, swap_gate
with an odd leg grouping succeeds (returning the tensor unchanged) instead of
failing with a LabelingError. -/
theorem swap_gate_odd_axes_cex :
    [[0]].length % 2 = 1 ∧ swap_gate aC8n [[0]] = .ok aC8n := by decide

/-! ### vdot -/

/-- Modelled from the spec: the vdot operation of the external numeric
backend (section 6), the scalar product of two flat buffers. -/
def dotBuf (x y : List Rat) : Rat := (List.zipWith (fun a b => a * b) x y).sum

/-- Extraction of a half-open slice of the flat buffer, one piece of the
apply_slice operation of the external backend. -/
def sliceBuf (d : List Rat) (sl : Nat × Nat) : List Rat := (d.drop sl.1).take (sl.2 - sl.1)

/-- The first operand after its conj flag is applied. -/
def vdotConjA (a0 : Tensor) (conj : Bool × Bool) : Tensor := if conj.1 then a0.conj else a0

/-- The second operand after its conj flag is applied. -/
def vdotConjB (b0 : Tensor) (conj : Bool × Bool) : Tensor := if conj.2 then b0.conj else b0

/-- Block entries (charge tuple, (dims, slice)) of a tensor, the joint view
of struct.t, struct.D and slices that the vdot loop walks. -/
def blockEntries (a : Tensor) : List (List (List Int) × (List Nat × (Nat × Nat))) :=
  a.t.zip (a.D.zip (slicesOf a.D))

/-- Sorted merge-join of the two block lists of vdot (the while loop over
ia, ib): keeps, on both sides in order, the blocks whose charge tuple also
occurs on the other side. -/
def vdotMerge : List (List (List Int) × (List Nat × (Nat × Nat))) →
    List (List (List Int) × (List Nat × (Nat × Nat))) →
    (List (List (List Int) × (List Nat × (Nat × Nat))) ×
     List (List (List Int) × (List Nat × (Nat × Nat))))
  | [], _ => ([], [])
  | _ :: _, [] => ([], [])
  | x :: xs, y :: ys =>
    if x.1 = y.1 then
      ((x :: (vdotMerge xs ys).1), (y :: (vdotMerge xs ys).2))
    else if rowLt x.1 y.1 then vdotMerge xs (y :: ys)
    else vdotMerge (x :: xs) ys

/-- Matched blocks of the first operand: all blocks on the fast path where
the two structures already agree, else the merge-join selection. -/
def vdotKeptA (a b : Tensor) : List (List (List Int) × (List Nat × (Nat × Nat))) :=
  if a.t = b.t ∧ slicesOf a.D = slicesOf b.D then blockEntries a
  else (vdotMerge (blockEntries a) (blockEntries b)).1

/-- Matched blocks of the second operand. -/
def vdotKeptB (a b : Tensor) : List (List (List Int) × (List Nat × (Nat × Nat))) :=
  if a.t = b.t ∧ slicesOf a.D = slicesOf b.D then blockEntries b
  else (vdotMerge (blockEntries a) (blockEntries b)).2

/-- The net conserved charge that vdot tests: the fusion of the total charges
of the two operands after the conj flags are applied (the c_n computation). -/
def vdot_charge (a0 b0 : Tensor) (conj : Bool × Bool) : List Int :=
  sym_fuse (vdotConjA a0 conj).nsym [(vdotConjA a0 conj).n, (vdotConjB b0 conj).n] [1, 1] 1

/-- vdot following the source: conjugate per the flags, check compatibility
and signatures, intersect the block lists by charge, compare matched block
dimensions, and either delegate the scalar product to the backend when the
net charge vanishes and blocks remain, or return the zero scalar
(zero_of_dtype). -/
def vdot (a0 b0 : Tensor) (conj : Bool × Bool) : Except Err Rat :=
  if a0.nsym ≠ b0.nsym then .error errCombine
  else if (vdotConjA a0 conj).s.length ≠ (vdotConjB b0 conj).s.length ∨
      ¬ (((vdotConjA a0 conj).s.zip (vdotConjB b0 conj).s).all
        (fun p => decide (p.1 = -p.2))) then .error errSign
  else if (vdotKeptA (vdotConjA a0 conj) (vdotConjB b0 conj)).map (fun x => x.2.1) ≠
      (vdotKeptB (vdotConjA a0 conj) (vdotConjB b0 conj)).map (fun x => x.2.1) then
    .error errBond
  else if 0 < (vdotKeptA (vdotConjA a0 conj) (vdotConjB b0 conj)).length ∧
      (vdot_charge a0 b0 conj).all (fun x => x = 0) then
    .ok (dotBuf
      ((vdotKeptA (vdotConjA a0 conj) (vdotConjB b0 conj)).map
        (fun x => sliceBuf (vdotConjA a0 conj).data x.2.2)).flatten
      ((vdotKeptB (vdotConjA a0 conj) (vdotConjB b0 conj)).map
        (fun x => sliceBuf (vdotConjB b0 conj).data x.2.2)).flatten)
  else .ok 0

/-- C3: for every pair of tensors accepted by vdot whose net conserved charge
(the fusion of the total charges after the conj flags are applied) is
nonzero, vdot returns the zero scalar and does not raise. -/
theorem vdot_nonzero_charge_zero (a0 b0 : Tensor) (conj : Bool × Bool)
    (hok : (vdot a0 b0 conj).isOk = true)
    (hn : ¬ ((vdot_charge a0 b0 conj).all (fun x => x = 0) = true)) :
    vdot a0 b0 conj = .ok 0 := by
  unfold vdot at hok ⊢
  by_cases h1 : a0.nsym ≠ b0.nsym
  · rw [if_pos h1] at hok; simp [Except.isOk, Except.toBool] at hok
  · rw [if_neg h1] at hok ⊢
    by_cases h2 : (vdotConjA a0 conj).s.length ≠ (vdotConjB b0 conj).s.length ∨
        ¬ (((vdotConjA a0 conj).s.zip (vdotConjB b0 conj).s).all
          (fun p => decide (p.1 = -p.2)))
    · rw [if_pos h2] at hok; simp [Except.isOk, Except.toBool] at hok
    · rw [if_neg h2] at hok ⊢
      by_cases h3 : (vdotKeptA (vdotConjA a0 conj) (vdotConjB b0 conj)).map (fun x => x.2.1) ≠
          (vdotKeptB (vdotConjA a0 conj) (vdotConjB b0 conj)).map (fun x => x.2.1)
      · rw [if_pos h3] at hok; simp [Except.isOk, Except.toBool] at hok
      · rw [if_neg h3] at hok ⊢
        rw [if_neg (fun hc => hn hc.2)]

/-- Concrete vdot operands carrying net charge 1. -/
def aV3 : Tensor :=
  { nsym := 1, s := [1], n := [1], t := [[[1]]], D := [[2]], data := [1, 2], ferm := .off }

/-- Second concrete vdot operand, with net charge 0 and matching structure. -/
def bV3 : Tensor :=
  { nsym := 1, s := [-1], n := [0], t := [[[1]]], D := [[2]], data := [3, 4], ferm := .off }

theorem vdot_nonzero_charge_zero_witness :
    ((vdot aV3 bV3 (false, false)).isOk = true ∧
      ¬ ((vdot_charge aV3 bV3 (false, false)).all (fun x => x = 0) = true)) ∧
    vdot aV3 bV3 (false, false) = .ok 0 :=
  ⟨⟨by decide, by decide⟩,
    vdot_nonzero_charge_zero aV3 bV3 (false, false) (by decide) (by decide)⟩

/-! ### tensordot -/

/-- The outgoing (uncontracted) native legs, in original order: the nout
computation of tensordot. -/
def uncontracted (ndim : Nat) (ins : List Nat) : List Nat :=
  (List.range ndim).filter (fun i => decide (¬ i ∈ ins))

/-- The _common_inds filter: blocks (charge tuple, dims) of one operand whose
contracted charge projection occurs among the contracted projections of the
other operand. -/
def keptOf (ta : List (List (List Int))) (Da : List (List Nat)) (ina : List Nat)
    (pb : List (List (List Int))) : List (List (List Int) × List Nat) :=
  (ta.zip Da).filter (fun blk => decide (proj blk.1 ina [] ∈ pb))

/-- Modelled from the spec: the leg structure of the merged contracted leg
produced by _merge_to_matrix (src/yastn/tensor/_merging.py is not part of
src/): the sorted table of contracted charge combinations with their per-leg
dimensions; tensordot compares the two contracted leg structures when no
mask applies. -/
def lsOf (kept : List (List (List Int) × List Nat)) (ina : List Nat) :
    List (List (List Int) × List Nat) :=
  sortedDedup blockLt (kept.map (fun blk => (proj blk.1 ina [], proj blk.2 ina 0)))

/-- Modelled from the spec: the merged two-leg block structure produced by
_merge_to_matrix, one (row charge, column charge) sector pair per distinct
fused combination, charge-sorted; rows fuse with effective signature 1,
columns with -1. -/
def mergedOf (nsym : Nat) (s : List Int) (kept : List (List (List Int) × List Nat))
    (rows cols : List Nat) : List (List Int × List Int) :=
  sortedDedup mergedLt (kept.map (fun blk =>
    (sym_fuse nsym (proj blk.1 rows []) (proj s rows 0) 1,
     sym_fuse nsym (proj blk.1 cols []) (proj s cols 0) (-1))))

/-- The resorting key of _meta_tensordot for the first operand: merged
sectors ordered by contracted (column) charge first. -/
def aResLt (p q : List Int × List Int) : Bool := mergedLt (p.2, p.1) (q.2, q.1)

/-- The sector zip of _meta_tensordot with its assertion: walking the
column-resorted sectors of the first operand against the row-sorted sectors
of the second, the contracted charges must agree pairwise. -/
def zipWalk : List (List Int × List Int) → List (List Int × List Int) → Except Err Unit
  | x :: xs, y :: ys => if x.2 ≠ y.1 then .error errAssert else zipWalk xs ys
  | _, _ => .ok ()

/-- The output total charge computed by _meta_tensordot: the fusion of the
two total charges with signatures (1, 1). -/
def tensordot_n (nsym : Nat) (na nb : List Int) : List Int :=
  sym_fuse nsym [na, nb] [1, 1] 1

/-- Kept blocks of the first tensordot operand. -/
def tdKeptA (a b : Tensor) (axes : List Nat × List Nat) :
    List (List (List Int) × List Nat) :=
  keptOf a.t a.D axes.1 (b.t.map (fun tb => proj tb axes.2 []))

/-- Kept blocks of the second tensordot operand. -/
def tdKeptB (a b : Tensor) (axes : List Nat × List Nat) :
    List (List (List Int) × List Nat) :=
  keptOf b.t b.D axes.2 (a.t.map (fun tb => proj tb axes.1 []))

/-- Modelled from the spec: the unmerge of the product back into the output
tensor (_meta_unmerge_matrix, _unmerge and the backend dot of
src/yastn/tensor/_merging.py and the backend are not part of src/): each
matched pair of kept blocks contributes the output block whose charges are
the uncontracted charges of the first operand followed by those of the
second, with the corresponding dimensions; the collection is kept
charge-sorted and duplicate-free. -/
def outBlocks (keptA keptB : List (List (List Int) × List Nat))
    (ina inb nouta noutb : List Nat) : List (List (List Int) × List Nat) :=
  sortedDedup blockLt
    ((keptA.map (fun x => keptB.filterMap (fun y =>
      if proj x.1 ina [] = proj y.1 inb [] then
        some (proj x.1 nouta [] ++ proj y.1 noutb [], proj x.2 nouta 0 ++ proj y.2 noutb 0)
      else none))).flatten)

/-- Output blocks of tensordot on the two operands. -/
def tdOut (a b : Tensor) (axes : List Nat × List Nat) :
    List (List (List Int) × List Nat) :=
  outBlocks (tdKeptA a b axes) (tdKeptB a b axes) axes.1 axes.2
    (uncontracted a.ndim axes.1) (uncontracted b.ndim axes.2)

/-- Total element count of a block list. -/
def sizeOfD (D : List (List Nat)) : Nat := (D.map prodD).foldl (fun x y => x + y) 0

/-- The output tensor of a successful tensordot: legs of the first operand
not contracted (original order) followed by those of the second, fused total
charge, unmerged blocks, and the backend buffer of the declared size. -/
def tdResult (a b : Tensor) (axes : List Nat × List Nat) : Tensor :=
  { nsym := a.nsym,
    s := proj a.s (uncontracted a.ndim axes.1) 0 ++ proj b.s (uncontracted b.ndim axes.2) 0,
    n := tensordot_n a.nsym a.n b.n,
    t := (tdOut a b axes).map (fun x => x.1),
    D := (tdOut a b axes).map (fun x => x.2),
    data := List.replicate (sizeOfD ((tdOut a b axes).map (fun x => x.2))) 0,
    ferm := a.ferm }

/-- tensordot on two non-diagonal tensors with the conj flags already
applied, following the control flow of the source: the axes-match signature
test, the compatibility test, the _common_inds filter, the merge into matrix
form, _meta_tensordot with its sector alignment assertion, the
bond-dimension comparison of the two contracted leg structures (no mask
applies on trivially fused legs), and the unmerge into the output tensor
whose legs are the uncontracted legs of the first operand (original order)
followed by those of the second, with the fused total charge; the dense
payload is the backend buffer of the declared size. -/
def tensordot_nc (a b : Tensor) (axes : List Nat × List Nat) : Except Err Tensor :=
  if axes.1.length ≠ axes.2.length ∨
      ¬ ((axes.1.zip axes.2).all (fun p => decide (a.s.getD p.1 0 = - b.s.getD p.2 0))) then
    .error errSign
  else if a.nsym ≠ b.nsym then .error errCombine
  else
    match zipWalk
        (List.insertionSort (leB aResLt)
          (mergedOf a.nsym a.s (tdKeptA a b axes) (uncontracted a.ndim axes.1) axes.1))
        (mergedOf b.nsym b.s (tdKeptB a b axes) axes.2 (uncontracted b.ndim axes.2)) with
    | .error e => .error e
    | .ok _ =>
      if lsOf (tdKeptA a b axes) axes.1 ≠ lsOf (tdKeptB a b axes) axes.2 then
        .error errBond
      else
        .ok (tdResult a b axes)

/-- tensordot: apply the conj flags and contract; the diagonal fast path is
outside this model, which covers non-diagonal tensors. -/
def tensordot (a b : Tensor) (axes : List Nat × List Nat) (conj : Bool × Bool) :
    Except Err Tensor :=
  tensordot_nc (if conj.1 then a.conj else a) (if conj.2 then b.conj else b) axes

/-- C1: for non-diagonal tensors with conj = (0, 0), whenever tensordot
succeeds, the result legs are the uncontracted legs of the first operand in
original order followed by those of the second (signatures and block
charges), and the result total charge is the symmetry fusion of the two
total charges. -/
theorem tensordot_result_legs (a b c : Tensor) (axes : List Nat × List Nat)
    (h : tensordot a b axes (false, false) = .ok c) :
    c.s = proj a.s (uncontracted a.ndim axes.1) 0 ++
      proj b.s (uncontracted b.ndim axes.2) 0 ∧
    c.n = tensordot_n a.nsym a.n b.n ∧
    ∀ tc ∈ c.t, ∃ ta ∈ a.t, ∃ tb ∈ b.t,
      proj ta axes.1 [] = proj tb axes.2 [] ∧
      tc = proj ta (uncontracted a.ndim axes.1) [] ++
        proj tb (uncontracted b.ndim axes.2) [] := by
  unfold tensordot at h
  simp only [if_neg (by decide : ¬ ((false, false).1 = true)),
    if_neg (by decide : ¬ ((false, false).2 = true))] at h
  unfold tensordot_nc at h
  by_cases h1 : axes.1.length ≠ axes.2.length ∨
      ¬ ((axes.1.zip axes.2).all (fun p => decide (a.s.getD p.1 0 = - b.s.getD p.2 0)))
  · rw [if_pos h1] at h; cases h
  · rw [if_neg h1] at h
    by_cases h2 : a.nsym ≠ b.nsym
    · rw [if_pos h2] at h; cases h
    · rw [if_neg h2] at h
      cases hz : zipWalk
          (List.insertionSort (leB aResLt)
            (mergedOf a.nsym a.s (tdKeptA a b axes) (uncontracted a.ndim axes.1) axes.1))
          (mergedOf b.nsym b.s (tdKeptB a b axes) axes.2 (uncontracted b.ndim axes.2)) with
      | error e => rw [hz] at h; cases h
      | ok u =>
        rw [hz] at h
        by_cases h3 : lsOf (tdKeptA a b axes) axes.1 ≠ lsOf (tdKeptB a b axes) axes.2
        · rw [if_pos h3] at h; cases h
        · rw [if_neg h3] at h
          have hc : c = tdResult a b axes := by
            cases h; rfl
          subst hc
          unfold tdResult
          refine ⟨rfl, rfl, ?_⟩
          intro tc htc
          obtain ⟨blk, hblk, hfst⟩ := List.mem_map.mp htc
          rw [tdOut, outBlocks, sortedDedup_mem] at hblk
          obtain ⟨l, hl, hbl⟩ := List.mem_flatten.mp hblk
          obtain ⟨x, hx, hlx⟩ := List.mem_map.mp hl
          rw [← hlx] at hbl
          obtain ⟨y, hy, hsome⟩ := List.mem_filterMap.mp hbl
          by_cases hcond : proj x.1 axes.1 [] = proj y.1 axes.2 []
          · rw [if_pos hcond] at hsome
            have hblk2 := Option.some.inj hsome
            have hxa : x.1 ∈ a.t := by
              have hzip := (List.mem_filter.mp hx).1
              exact (List.of_mem_zip hzip).1
            have hyb : y.1 ∈ b.t := by
              have hzip := (List.mem_filter.mp hy).1
              exact (List.of_mem_zip hzip).1
            refine ⟨x.1, hxa, y.1, hyb, hcond, ?_⟩
            rw [← hfst, ← hblk2]
          · rw [if_neg hcond] at hsome
            cases hsome

/-! ### Fuse algebra: splitting a fused charge over a leg partition -/

theorem zip_eq_range_map (xs : List α) (ys : List β) (da : α) (db : β)
    (h : xs.length = ys.length) :
    xs.zip ys = (List.range xs.length).map (fun i => (xs.getD i da, ys.getD i db)) := by
  induction xs generalizing ys with
  | nil => simp
  | cons x xs2 ih =>
    cases ys with
    | nil => simp at h
    | cons y ys2 =>
      have h2 : xs2.length = ys2.length := by simpa using h
      simp only [List.zip_cons_cons, List.length_cons, List.range_succ_eq_map,
        List.map_cons, List.map_map]
      rw [ih ys2 h2]
      simp [Function.comp_def]

theorem zipWith_map_same (f : β → γ → δ) (g : α → β) (h2 : α → γ) (l : List α) :
    List.zipWith f (l.map g) (l.map h2) = l.map (fun x => f (g x) (h2 x)) := by
  induction l with
  | nil => rfl
  | cons x xs ih => simp [ih]

theorem fuseSum_eq_range (tb : List (List Int)) (s : List Int) (k : Nat)
    (h : tb.length = s.length) :
    fuseSum tb s k =
      ((List.range tb.length).map (fun i => s.getD i 0 * chargeAt (tb.getD i []) k)).sum := by
  unfold fuseSum
  rw [zip_eq_range_map tb s [] 0 h, List.map_map]
  rfl

theorem fuseSum_proj (tb : List (List Int)) (s : List Int) (ixs : List Nat) (k : Nat) :
    fuseSum (proj tb ixs []) (proj s ixs 0) k =
      (ixs.map (fun i => s.getD i 0 * chargeAt (tb.getD i []) k)).sum := by
  unfold fuseSum proj
  rw [List.zip_map', List.map_map]
  rfl

theorem range_perm_split (n : Nat) (ina : List Nat) (hna : ina.Nodup)
    (hina : ∀ i ∈ ina, i < n) :
    (List.range n).Perm (uncontracted n ina ++ ina) := by
  have h1 := (List.filter_append_perm (fun i => decide (¬ i ∈ ina)) (List.range n)).symm
  have h2 : (List.range n).filter (fun i => !decide (¬ i ∈ ina)) =
      (List.range n).filter (fun i => decide (i ∈ ina)) := by
    apply List.filter_congr
    intro x _
    by_cases hx : x ∈ ina <;> simp [hx]
  have h3 : ((List.range n).filter (fun i => decide (i ∈ ina))).Perm ina := by
    rw [List.perm_ext_iff_of_nodup (List.Nodup.filter _ (List.nodup_range n)) hna]
    intro x
    simp only [List.mem_filter, List.mem_range, decide_eq_true_eq]
    constructor
    · intro hx; exact hx.2
    · intro hx; exact ⟨hina x hx, hx⟩
  refine h1.trans ?_
  unfold uncontracted
  rw [h2]
  exact List.Perm.append_left _ h3

theorem fuseSum_split (tb : List (List Int)) (s : List Int) (ina : List Nat) (k : Nat)
    (h : tb.length = s.length) (hna : ina.Nodup) (hina : ∀ i ∈ ina, i < s.length) :
    fuseSum tb s k =
      fuseSum (proj tb (uncontracted s.length ina) []) (proj s (uncontracted s.length ina) 0) k +
      fuseSum (proj tb ina []) (proj s ina 0) k := by
  rw [fuseSum_eq_range tb s k h, fuseSum_proj, fuseSum_proj]
  have hperm := (range_perm_split s.length ina hna hina).map
    (fun i => s.getD i 0 * chargeAt (tb.getD i []) k)
  rw [h, hperm.sum_eq, List.map_append, List.sum_append]

theorem sum_map_neg2 (L : List γ) (f : γ → Int) :
    (L.map (fun x => - f x)).sum = - (L.map f).sum := by
  induction L with
  | nil => simp
  | cons x xs ih =>
    simp only [List.map_cons, List.sum_cons, ih]
    ring

theorem fuseSum_neg_sigs (cs : List (List Int)) (sigs : List Int) (k : Nat) :
    fuseSum cs (sigs.map (fun x => -x)) k = - fuseSum cs sigs k := by
  unfold fuseSum
  rw [List.zip_map_right, List.map_map]
  have h1 : ((fun p : List Int × Int => p.2 * chargeAt p.1 k) ∘
      Prod.map id (fun x => -x)) =
      (fun p : List Int × Int => - (p.2 * chargeAt p.1 k)) := by
    funext p
    simp [Prod.map]
  rw [h1, sum_map_neg2]

theorem sym_fuse_neg_sigs (nsym : Nat) (cs : List (List Int)) (sigs sigs2 : List Int)
    (hs : sigs2 = sigs.map (fun x => -x)) :
    sym_fuse nsym cs sigs2 1 = sym_fuse nsym cs sigs (-1) := by
  subst hs
  unfold sym_fuse
  apply List.map_congr_left
  intro k _
  rw [fuseSum_neg_sigs]
  ring

theorem proj_sigs_neg (sa sb : List Int) (ina inb : List Nat)
    (hlen : ina.length = inb.length)
    (hsig : ∀ p ∈ ina.zip inb, sa.getD p.1 0 = - sb.getD p.2 0) :
    proj sb inb 0 = (proj sa ina 0).map (fun x => -x) := by
  induction ina generalizing inb with
  | nil =>
    cases inb with
    | nil => rfl
    | cons j js => simp at hlen
  | cons i is ih =>
    cases inb with
    | nil => simp at hlen
    | cons j js =>
      have hhead := hsig (i, j) (by simp)
      have htail : ∀ p ∈ is.zip js, sa.getD p.1 0 = - sb.getD p.2 0 := by
        intro p hp
        exact hsig p (by simp [hp])
      rw [show proj sb (j :: js) 0 = sb.getD j 0 :: proj sb js 0 from rfl,
        show proj sa (i :: is) 0 = sa.getD i 0 :: proj sa is 0 from rfl,
        List.map_cons]
      rw [ih js (by simpa using hlen) htail]
      have hj : sb.getD j 0 = - sa.getD i 0 := by
        simp only at hhead
        omega
      rw [hj]

/-- The output-row charge of a merged sector of the first operand is
determined by its contracted-column charge: row = n + column. -/
theorem mergedA_determined (nsym : Nat) (tb : List (List Int)) (s : List Int) (n : List Int)
    (ina : List Nat) (htb : tb.length = s.length) (hna : ina.Nodup)
    (hina : ∀ i ∈ ina, i < s.length) (hcons : sym_fuse nsym tb s 1 = n) :
    sym_fuse nsym (proj tb (uncontracted s.length ina) []) (proj s (uncontracted s.length ina) 0) 1 =
      List.zipWith (fun u v => u + v) n (sym_fuse nsym (proj tb ina []) (proj s ina 0) (-1)) := by
  rw [← hcons]
  unfold sym_fuse
  rw [zipWith_map_same]
  apply List.map_congr_left
  intro k _
  rw [fuseSum_split tb s ina k htb hna hina]
  ring

/-- The output-column charge of a merged sector of the second operand is
determined by its contracted-row charge: column = row - n. -/
theorem mergedB_determined (nsym : Nat) (tb : List (List Int)) (s : List Int) (n : List Int)
    (inb : List Nat) (htb : tb.length = s.length) (hnb : inb.Nodup)
    (hinb : ∀ i ∈ inb, i < s.length) (hcons : sym_fuse nsym tb s 1 = n) :
    sym_fuse nsym (proj tb (uncontracted s.length inb) []) (proj s (uncontracted s.length inb) 0) (-1) =
      List.zipWith (fun u v => u - v)
        (sym_fuse nsym (proj tb inb []) (proj s inb 0) 1) n := by
  rw [← hcons]
  unfold sym_fuse
  rw [zipWith_map_same]
  apply List.map_congr_left
  intro k _
  rw [fuseSum_split tb s inb k htb hnb hinb]
  ring

/-! ### Alignment of the merged sectors in _meta_tensordot -/

theorem leB_mergedLt_fst {p q : List Int × List Int} (h : leB mergedLt p q) :
    leB chargeLt p.1 q.1 := by
  unfold leB at h ⊢
  unfold mergedLt pairLtW at h
  by_cases h1 : chargeLt q.1 p.1 = true
  · rw [if_pos h1] at h
    exact absurd h (by simp)
  · simpa using h1

theorem leB_aResLt_snd {p q : List Int × List Int} (h : leB aResLt p q) :
    leB chargeLt p.2 q.2 := by
  unfold leB at h ⊢
  unfold aResLt mergedLt pairLtW at h
  by_cases h1 : chargeLt q.2 p.2 = true
  · rw [if_pos h1] at h
    exact absurd h (by simp)
  · simpa using h1

theorem aResLt_strictOrd : StrictOrd aResLt := by
  constructor
  · intro x y h
    exact mergedLt_strictOrd.asymm _ _ h
  · intro x y z h1 h2
    exact mergedLt_strictOrd.trans _ _ _ h1 h2
  · intro x y h1 h2
    have h3 := mergedLt_strictOrd.conn _ _ h1 h2
    have h4 : x.2 = y.2 := congrArg Prod.fst h3
    have h5 : x.1 = y.1 := congrArg Prod.snd h3
    exact Prod.ext h5 h4

/-- When the row charge of every sector determines the column charge, the row
charges of the sorted duplicate-free sector list are the sorted
duplicate-free row charges. -/
theorem mapFst_sortedDedup_det (L : List (List Int × List Int)) (g : List Int → List Int)
    (hdet : ∀ p ∈ L, p.2 = g p.1) :
    (sortedDedup mergedLt L).map Prod.fst = sortedDedup chargeLt (L.map Prod.fst) := by
  apply sorted_nodup_eq_of_mem_iff chargeLt_strictOrd
  · apply List.Nodup.map_on
    · intro x hx y hy hxy
      have hdx : x.2 = g x.1 := hdet x ((sortedDedup_mem _ _ _).mp hx)
      have hdy : y.2 = g y.1 := hdet y ((sortedDedup_mem _ _ _).mp hy)
      exact Prod.ext hxy (by rw [hdx, hdy, hxy])
    · exact sortedDedup_nodup _ _
  · exact sortedDedup_nodup _ _
  · have hs := sortedDedup_sorted mergedLt_strictOrd L
    exact List.pairwise_map.mpr (hs.imp (fun h => leB_mergedLt_fst h))
  · exact sortedDedup_sorted chargeLt_strictOrd _
  · intro x
    rw [sortedDedup_mem]
    constructor
    · intro hx
      obtain ⟨p, hp, hfst⟩ := List.mem_map.mp hx
      exact List.mem_map.mpr ⟨p, (sortedDedup_mem _ _ _).mp hp, hfst⟩
    · intro hx
      obtain ⟨p, hp, hfst⟩ := List.mem_map.mp hx
      exact List.mem_map.mpr ⟨p, (sortedDedup_mem _ _ _).mpr hp, hfst⟩

/-- When the column charge of every sector determines the row charge, the
column charges of the column-resorted sector list of _meta_tensordot are the
sorted duplicate-free column charges. -/
theorem mapSnd_sortA_det (L : List (List Int × List Int)) (g : List Int → List Int)
    (hdet : ∀ p ∈ L, p.1 = g p.2) :
    (List.insertionSort (leB aResLt) (sortedDedup mergedLt L)).map Prod.snd =
      sortedDedup chargeLt (L.map Prod.snd) := by
  have hperm := List.perm_insertionSort (leB aResLt) (sortedDedup mergedLt L)
  apply sorted_nodup_eq_of_mem_iff chargeLt_strictOrd
  · apply List.Nodup.map_on
    · intro x hx y hy hxy
      have hdx : x.1 = g x.2 :=
        hdet x ((sortedDedup_mem _ _ _).mp (hperm.mem_iff.mp hx))
      have hdy : y.1 = g y.2 :=
        hdet y ((sortedDedup_mem _ _ _).mp (hperm.mem_iff.mp hy))
      exact Prod.ext (by rw [hdx, hdy, hxy]) hxy
    · exact hperm.nodup_iff.mpr (sortedDedup_nodup _ _)
  · exact sortedDedup_nodup _ _
  · haveI := leB_isTotal aResLt_strictOrd
    haveI := leB_isTrans aResLt_strictOrd
    have hs := List.sorted_insertionSort (leB aResLt) (sortedDedup mergedLt L)
    exact List.pairwise_map.mpr (hs.imp (fun h => leB_aResLt_snd h))
  · exact sortedDedup_sorted chargeLt_strictOrd _
  · intro x
    rw [sortedDedup_mem]
    constructor
    · intro hx
      obtain ⟨p, hp, hsnd⟩ := List.mem_map.mp hx
      exact List.mem_map.mpr ⟨p, (sortedDedup_mem _ _ _).mp (hperm.mem_iff.mp hp), hsnd⟩
    · intro hx
      obtain ⟨p, hp, hsnd⟩ := List.mem_map.mp hx
      exact List.mem_map.mpr
        ⟨p, hperm.mem_iff.mpr ((sortedDedup_mem _ _ _).mpr hp), hsnd⟩

theorem exists_zip_pair (xs : List α) (ys : List β) (h : xs.length = ys.length) :
    ∀ x ∈ xs, ∃ y, (x, y) ∈ xs.zip ys := by
  induction xs generalizing ys with
  | nil => intro x hx; simp at hx
  | cons a as ih =>
    intro x hx
    cases ys with
    | nil => simp at h
    | cons b bs =>
      rcases List.mem_cons.mp hx with he | hm
      · subst he
        exact ⟨b, by simp⟩
      · obtain ⟨y, hy⟩ := ih bs (by simpa using h) x hm
        exact ⟨y, by simp [hy]⟩

/-- The contracted charge projections of the kept blocks of the first
operand are exactly the projections common to both operands. -/
theorem mem_tdKeptA_proj (a b : Tensor) (axes : List Nat × List Nat)
    (hab : a.t.length = a.D.length) (x : List (List Int)) :
    x ∈ (tdKeptA a b axes).map (fun blk => proj blk.1 axes.1 []) ↔
      (x ∈ a.t.map (fun tb => proj tb axes.1 []) ∧
       x ∈ b.t.map (fun tb => proj tb axes.2 [])) := by
  constructor
  · intro hx
    obtain ⟨blk, hblk, hpr⟩ := List.mem_map.mp hx
    have hf := List.mem_filter.mp hblk
    have hmem := (List.of_mem_zip hf.1).1
    have hpred := hf.2
    simp only [decide_eq_true_eq] at hpred
    constructor
    · exact List.mem_map.mpr ⟨blk.1, hmem, hpr⟩
    · rw [← hpr]
      exact hpred
  · intro hx
    obtain ⟨ta, hta, hpr⟩ := List.mem_map.mp hx.1
    obtain ⟨da, hda⟩ := exists_zip_pair a.t a.D hab ta hta
    refine List.mem_map.mpr ⟨(ta, da), ?_, hpr⟩
    apply List.mem_filter.mpr
    refine ⟨hda, ?_⟩
    simp only [decide_eq_true_eq]
    rw [hpr]
    exact hx.2

/-- The contracted charge projections of the kept blocks of the second
operand are exactly the projections common to both operands. -/
theorem mem_tdKeptB_proj (a b : Tensor) (axes : List Nat × List Nat)
    (hab : b.t.length = b.D.length) (x : List (List Int)) :
    x ∈ (tdKeptB a b axes).map (fun blk => proj blk.1 axes.2 []) ↔
      (x ∈ b.t.map (fun tb => proj tb axes.2 []) ∧
       x ∈ a.t.map (fun tb => proj tb axes.1 [])) := by
  constructor
  · intro hx
    obtain ⟨blk, hblk, hpr⟩ := List.mem_map.mp hx
    have hf := List.mem_filter.mp hblk
    have hmem := (List.of_mem_zip hf.1).1
    have hpred := hf.2
    simp only [decide_eq_true_eq] at hpred
    constructor
    · exact List.mem_map.mpr ⟨blk.1, hmem, hpr⟩
    · rw [← hpr]
      exact hpred
  · intro hx
    obtain ⟨tb, htb, hpr⟩ := List.mem_map.mp hx.1
    obtain ⟨db, hdb⟩ := exists_zip_pair b.t b.D hab tb htb
    refine List.mem_map.mpr ⟨(tb, db), ?_, hpr⟩
    apply List.mem_filter.mpr
    refine ⟨hdb, ?_⟩
    simp only [decide_eq_true_eq]
    rw [hpr]
    exact hx.2

theorem zipWalk_ok (xs ys : List (List Int × List Int))
    (h : xs.map Prod.snd = ys.map Prod.fst) : zipWalk xs ys = .ok () := by
  induction xs generalizing ys with
  | nil => cases ys <;> rfl
  | cons x xs2 ih =>
    cases ys with
    | nil => simp at h
    | cons y ys2 =>
      simp only [List.map_cons, List.cons.injEq] at h
      unfold zipWalk
      rw [if_neg (fun hc => hc h.1)]
      exact ih ys2 h.2

/-- Charge conservation invariant (spec section 3): every block charge tuple
fuses, with the leg signatures, to the total charge. -/
def consLaw (a : Tensor) : Prop := ∀ tb ∈ a.t, sym_fuse a.nsym tb a.s 1 = a.n

/-- Shape invariant: block count matches and every block has one charge
vector per leg. -/
def shapeLaw (a : Tensor) : Prop :=
  a.t.length = a.D.length ∧ (∀ tb ∈ a.t, tb.length = a.ndim)

/-- Per-leg dimension consistency (spec section 3): two blocks agreeing on
the charge of a leg agree on its dimension. -/
def dimLaw (a : Tensor) : Prop :=
  ∀ x ∈ a.t.zip a.D, ∀ y ∈ a.t.zip a.D, ∀ l : Nat, l < a.ndim →
    x.1.getD l [] = y.1.getD l [] → x.2.getD l 0 = y.2.getD l 0

instance consLaw_decidable (a : Tensor) : Decidable (consLaw a) := by
  unfold consLaw
  infer_instance

instance shapeLaw_decidable (a : Tensor) : Decidable (shapeLaw a) := by
  unfold shapeLaw
  infer_instance

instance dimLaw_decidable (a : Tensor) : Decidable (dimLaw a) := by
  unfold dimLaw
  infer_instance

/-- For well-formed operands whose contracted legs carry the same charge
combinations, the sector zip of _meta_tensordot is aligned: the assertion
never fires. -/
theorem tdZipWalk_aligned (a b : Tensor) (axes : List Nat × List Nat)
    (hlen : axes.1.length = axes.2.length)
    (hna : axes.1.Nodup) (hnb : axes.2.Nodup)
    (hira : ∀ i ∈ axes.1, i < a.ndim) (hirb : ∀ j ∈ axes.2, j < b.ndim)
    (hsig : ∀ p ∈ axes.1.zip axes.2, a.s.getD p.1 0 = - b.s.getD p.2 0)
    (hnsym : a.nsym = b.nsym)
    (hta : a.t.length = a.D.length) (htb : b.t.length = b.D.length)
    (hsha : ∀ tb ∈ a.t, tb.length = a.ndim) (hshb : ∀ tb ∈ b.t, tb.length = b.ndim)
    (hca : consLaw a) (hcb : consLaw b) :
    zipWalk
      (List.insertionSort (leB aResLt)
        (mergedOf a.nsym a.s (tdKeptA a b axes) (uncontracted a.ndim axes.1) axes.1))
      (mergedOf b.nsym b.s (tdKeptB a b axes) axes.2 (uncontracted b.ndim axes.2)) =
      .ok () := by
  apply zipWalk_ok
  unfold mergedOf
  rw [mapSnd_sortA_det _ (fun c => List.zipWith (fun u v => u + v) a.n c) (by
    intro p hp
    obtain ⟨blk, hblk, hpe⟩ := List.mem_map.mp hp
    have hmem : blk.1 ∈ a.t := (List.of_mem_zip (List.mem_filter.mp hblk).1).1
    rw [← hpe]
    exact mergedA_determined a.nsym blk.1 a.s a.n axes.1 (hsha blk.1 hmem) hna hira
      (hca blk.1 hmem))]
  rw [mapFst_sortedDedup_det _ (fun r => List.zipWith (fun u v => u - v) r b.n) (by
    intro p hp
    obtain ⟨blk, hblk, hpe⟩ := List.mem_map.mp hp
    have hmem : blk.1 ∈ b.t := (List.of_mem_zip (List.mem_filter.mp hblk).1).1
    rw [← hpe]
    exact mergedB_determined b.nsym blk.1 b.s b.n axes.2 (hshb blk.1 hmem) hnb hirb
      (hcb blk.1 hmem))]
  apply sortedDedup_congr_mem chargeLt_strictOrd
  intro x
  have hsigs2 : proj b.s axes.2 0 = (proj a.s axes.1 0).map (fun v => -v) :=
    proj_sigs_neg a.s b.s axes.1 axes.2 hlen hsig
  have hrow : ∀ r : List (List Int),
      sym_fuse b.nsym r (proj b.s axes.2 0) 1 = sym_fuse a.nsym r (proj a.s axes.1 0) (-1) := by
    intro r
    rw [← hnsym]
    exact sym_fuse_neg_sigs a.nsym r (proj a.s axes.1 0) (proj b.s axes.2 0) hsigs2
  constructor
  · intro hx
    rw [List.map_map] at hx
    obtain ⟨blk, hblk, hxe⟩ := List.mem_map.mp hx
    have hpa : proj blk.1 axes.1 [] ∈ (tdKeptA a b axes).map (fun q => proj q.1 axes.1 []) :=
      List.mem_map.mpr ⟨blk, hblk, rfl⟩
    have hcomm := (mem_tdKeptA_proj a b axes hta _).mp hpa
    have hpb : proj blk.1 axes.1 [] ∈ (tdKeptB a b axes).map (fun q => proj q.1 axes.2 []) :=
      (mem_tdKeptB_proj a b axes htb _).mpr ⟨hcomm.2, hcomm.1⟩
    obtain ⟨blk2, hblk2, hpr2⟩ := List.mem_map.mp hpb
    rw [List.map_map]
    refine List.mem_map.mpr ⟨blk2, hblk2, ?_⟩
    show sym_fuse b.nsym (proj blk2.1 axes.2 []) (proj b.s axes.2 0) 1 = x
    rw [hrow (proj blk2.1 axes.2 []), hpr2]
    exact hxe
  · intro hx
    rw [List.map_map] at hx
    obtain ⟨blk, hblk, hxe⟩ := List.mem_map.mp hx
    have hpb : proj blk.1 axes.2 [] ∈ (tdKeptB a b axes).map (fun q => proj q.1 axes.2 []) :=
      List.mem_map.mpr ⟨blk, hblk, rfl⟩
    have hcomm := (mem_tdKeptB_proj a b axes htb _).mp hpb
    have hpa : proj blk.1 axes.2 [] ∈ (tdKeptA a b axes).map (fun q => proj q.1 axes.1 []) :=
      (mem_tdKeptA_proj a b axes hta _).mpr ⟨hcomm.2, hcomm.1⟩
    obtain ⟨blk2, hblk2, hpr2⟩ := List.mem_map.mp hpa
    rw [List.map_map]
    refine List.mem_map.mpr ⟨blk2, hblk2, ?_⟩
    show sym_fuse a.nsym (proj blk2.1 axes.1 []) (proj a.s axes.1 0) (-1) = x
    rw [hpr2, ← hrow (proj blk.1 axes.2 [])]
    exact hxe

/-- C4: for non-diagonal well-formed operands whose contracted legs carry
the same charge combinations but where some matched combination has a
different dimension on the two sides (and no fusion-history mask applies,
legs being trivially fused), tensordot fails with the DimensionMismatch
error. -/
theorem tensordot_dim_mismatch (a b : Tensor) (axes : List Nat × List Nat)
    (hlen : axes.1.length = axes.2.length)
    (hna : axes.1.Nodup) (hnb : axes.2.Nodup)
    (hira : ∀ i ∈ axes.1, i < a.ndim) (hirb : ∀ j ∈ axes.2, j < b.ndim)
    (hsig : ∀ p ∈ axes.1.zip axes.2, a.s.getD p.1 0 = - b.s.getD p.2 0)
    (hnsym : a.nsym = b.nsym)
    (hsa : shapeLaw a) (hsb : shapeLaw b)
    (hca : consLaw a) (hcb : consLaw b) (hdb : dimLaw b)
    (hset1 : ∀ x ∈ a.t.map (fun tb => proj tb axes.1 []),
      x ∈ b.t.map (fun tb => proj tb axes.2 []))
    (hset2 : ∀ x ∈ b.t.map (fun tb => proj tb axes.2 []),
      x ∈ a.t.map (fun tb => proj tb axes.1 []))
    (hdiff : ∃ x ∈ a.t.zip a.D, ∃ y ∈ b.t.zip b.D,
      proj x.1 axes.1 [] = proj y.1 axes.2 [] ∧ proj x.2 axes.1 0 ≠ proj y.2 axes.2 0) :
    tensordot a b axes (false, false) = .error errBond := by
  unfold tensordot
  simp only [if_neg (by decide : ¬ ((false, false).1 = true)),
    if_neg (by decide : ¬ ((false, false).2 = true))]
  unfold tensordot_nc
  rw [if_neg (by
    push_neg
    refine ⟨hlen, ?_⟩
    rw [List.all_eq_true]
    intro p hp
    simp only [decide_eq_true_eq]
    exact hsig p hp)]
  rw [if_neg (fun hc => hc hnsym)]
  rw [tdZipWalk_aligned a b axes hlen hna hnb hira hirb hsig hnsym hsa.1 hsb.1
    hsa.2 hsb.2 hca hcb]
  rw [if_pos (by
    intro heq
    obtain ⟨x, hxmem, y, hymem, hpq, hdq⟩ := hdiff
    have hxkept : x ∈ tdKeptA a b axes := by
      apply List.mem_filter.mpr
      refine ⟨hxmem, ?_⟩
      simp only [decide_eq_true_eq]
      rw [hpq]
      exact List.mem_map.mpr ⟨y.1, (List.of_mem_zip hymem).1, rfl⟩
    have hmema : (proj x.1 axes.1 [], proj x.2 axes.1 0) ∈ lsOf (tdKeptA a b axes) axes.1 := by
      rw [lsOf, sortedDedup_mem]
      exact List.mem_map.mpr ⟨x, hxkept, rfl⟩
    rw [heq] at hmema
    rw [lsOf, sortedDedup_mem] at hmema
    obtain ⟨z, hz, hze⟩ := List.mem_map.mp hmema
    have hz1 : proj z.1 axes.2 [] = proj x.1 axes.1 [] := congrArg Prod.fst hze
    have hz2 : proj z.2 axes.2 0 = proj x.2 axes.1 0 := congrArg Prod.snd hze
    have hzy1 : proj z.1 axes.2 [] = proj y.1 axes.2 [] := by rw [hz1, hpq]
    have hzmem : z ∈ b.t.zip b.D := (List.mem_filter.mp hz).1
    have hchrg : ∀ l ∈ axes.2, z.1.getD l [] = y.1.getD l [] := by
      intro l hl
      exact List.map_inj_left.mp hzy1 l hl
    have hdims : proj z.2 axes.2 0 = proj y.2 axes.2 0 := by
      apply List.map_inj_left.mpr
      intro l hl
      exact hdb z hzmem y hymem l (hirb l hl) (hchrg l hl)
    exact hdq (by rw [← hz2, hdims]))]

/-- The two operands of the C1 witness and their contraction. -/
def aT1 : Tensor :=
  { nsym := 1, s := [1, -1], n := [0], t := [[[0], [0]]], D := [[2, 3]],
    data := List.replicate 6 0, ferm := .off }

/-- Second operand of the C1 witness. -/
def bT1 : Tensor :=
  { nsym := 1, s := [1, -1], n := [0], t := [[[0], [0]]], D := [[3, 4]],
    data := List.replicate 12 0, ferm := .off }

/-- The contraction of aT1 and bT1 over the pair of legs (1, 0). -/
def cT1 : Tensor :=
  { nsym := 1, s := [1, -1], n := [0], t := [[[0], [0]]], D := [[2, 4]],
    data := List.replicate 8 0, ferm := .off }

theorem tensordot_result_legs_witness :
    tensordot aT1 bT1 ([1], [0]) (false, false) = .ok cT1 ∧
    (cT1.s = proj aT1.s (uncontracted aT1.ndim [1]) 0 ++
        proj bT1.s (uncontracted bT1.ndim [0]) 0 ∧
     cT1.n = tensordot_n aT1.nsym aT1.n bT1.n ∧
     ∀ tc ∈ cT1.t, ∃ ta ∈ aT1.t, ∃ tb ∈ bT1.t,
       proj ta [1] [] = proj tb [0] [] ∧
       tc = proj ta (uncontracted aT1.ndim [1]) [] ++
         proj tb (uncontracted bT1.ndim [0]) []) :=
  ⟨by decide, tensordot_result_legs aT1 bT1 cT1 ([1], [0]) (by decide)⟩

/-- First operand of the C4 witness: contracted leg sectors charge 0 of
dimension 2 and charge 1 of dimension 3. -/
def aT4 : Tensor :=
  { nsym := 1, s := [1, -1], n := [0], t := [[[0], [0]], [[1], [1]]],
    D := [[1, 2], [1, 3]], data := List.replicate 5 0, ferm := .off }

/-- Second operand of the C4 witness: the matched contracted leg carries
charge 0 of dimension 2 and charge 1 of dimension 4. -/
def bT4 : Tensor :=
  { nsym := 1, s := [1, -1], n := [0], t := [[[0], [0]], [[1], [1]]],
    D := [[2, 5], [4, 6]], data := List.replicate 34 0, ferm := .off }

theorem tensordot_dim_mismatch_witness :
    (shapeLaw aT4 ∧ shapeLaw bT4 ∧ consLaw aT4 ∧ consLaw bT4 ∧ dimLaw bT4) ∧
    tensordot aT4 bT4 ([1], [0]) (false, false) = .error errBond :=
  ⟨⟨by decide, by decide, by decide, by decide, by decide⟩,
    tensordot_dim_mismatch aT4 bT4 ([1], [0]) (by decide) (by decide) (by decide)
      (by decide) (by decide) (by decide) (by decide) (by decide) (by decide)
      (by decide) (by decide) (by decide) (by decide) (by decide) (by decide)⟩

/-! ### trace -/

instance : Inhabited Tensor :=
  ⟨{ nsym := 0, s := [], n := [], t := [], D := [], data := [], ferm := .off }⟩

/-- Helper of groupFirsts: skip blocks sharing the current untraced charge
tuple, keep the first block of each new run. -/
def groupFirstsGo (cur : List (List Int)) :
    List (List (List Int) × List Nat) → List (List (List Int) × List Nat)
  | [] => []
  | x :: xs => if x.1 = cur then groupFirstsGo cur xs else x :: groupFirstsGo x.1 xs

/-- First members of each run of blocks sharing an untraced charge tuple:
the groupby of _meta_trace over the sorted block list. -/
def groupFirsts : List (List (List Int) × List Nat) → List (List (List Int) × List Nat)
  | [] => []
  | x :: xs => x :: groupFirstsGo x.1 xs

/-- The order relation of the _meta_trace sort, keyed on the untraced charge
tuple. -/
def traceKeyLe (p q : List (List Int) × List Nat) : Prop := rowLt q.1 p.1 = false

instance traceKeyLe_decidable : DecidableRel traceKeyLe := by
  intro p q
  unfold traceKeyLe
  infer_instance

/-- trace following the source with trivially fused legs: overlapping axis
groups and mismatched signatures fail, an empty specification returns the
tensor, and otherwise blocks whose two traced charge projections agree are
grouped by their untraced charges (_meta_trace); matched traced dimensions
must agree (no mask applies), and the summed payload is the backend buffer
of the declared size. -/
def trace (a : Tensor) (axes : List Nat × List Nat) : Except Err Tensor :=
  if (axes.1.inter axes.2).length > 0 then .error errTraceSame
  else if axes.1.length ≠ axes.2.length ∨
      ¬ ((axes.1.zip axes.2).all (fun p => decide (a.s.getD p.1 0 = - a.s.getD p.2 0))) then
    .error errSign
  else if axes.1.length = 0 then .ok a
  else
    let out : List Nat := (List.range a.ndim).filter (fun i => decide (¬ i ∈ axes.1 ++ axes.2))
    let kept : List (List (List Int) × List Nat) :=
      (a.t.zip a.D).filter (fun blk => decide (proj blk.1 axes.1 [] = proj blk.1 axes.2 []))
    if kept.map (fun blk => proj blk.2 axes.1 0) ≠ kept.map (fun blk => proj blk.2 axes.2 0) then
      .error errBond
    else
      let projected := kept.map (fun blk => (proj blk.1 out [], proj blk.2 out 0))
      let grouped := groupFirsts (List.insertionSort traceKeyLe projected)
      .ok { nsym := a.nsym, s := proj a.s out 0, n := a.n,
            t := grouped.map (fun x => x.1), D := grouped.map (fun x => x.2),
            data := List.replicate (sizeOfD (grouped.map (fun x => x.2))) 0,
            ferm := a.ferm }

/-- Modelled from the spec: transpose (of the missing single-tensor module)
permutes the legs so that new leg i is old leg axes[i]; the block collection
is kept charge-sorted and the dense payload permutation is delegated to the
backend (identity on the buffer model). -/
def transposeT (a : Tensor) (axes : List Int) : Tensor :=
  let ax := axes.map Int.toNat
  let blocks := (a.t.zip a.D).map (fun blk => (proj blk.1 ax [], proj blk.2 ax 0))
  let sorted := List.insertionSort (leB blockLt) blocks
  { a with s := proj a.s ax 0, t := sorted.map (fun x => x.1), D := sorted.map (fun x => x.2) }

/-! ### The multi-tensor contraction planner (_meta_ncon, _consume_edges) -/

/-- Modelled from the spec: the _flatten utility of the missing auxiliary
module, flattening the nested index lists. -/
def flattenInds (inds : List (List Int)) : List Int := inds.flatten

/-- The sort key an ncon label receives: positive labels keep their value,
non-positive labels map to 1024 - label, and 512 is the sentinel between the
two groups. -/
def edgeKeyOf (x : Int) : Int := if 0 < x then x else -x + 1024

/-- The edge list of _meta_ncon: one (key, leg, tensor) triple per leg, in
tensor-major order. -/
def buildEdges (inds : List (List Int)) : List (Int × Int × Int) :=
  (inds.enum.map (fun pel =>
    pel.2.enum.map (fun q => (edgeKeyOf q.2, ((q.1 : Int), (pel.1 : Int)))))).flatten

/-- The pop sequence of _consume_edges: the source sorts the edge list in
descending key order (a stable sort) and pops from the end, which is the
stable ascending sort of the reversed edge list, consumed from the front. -/
def ascEdges (edges : List (Int × Int × Int)) : List (Int × Int × Int) :=
  List.insertionSort (fun e f : Int × Int × Int => e.1 ≤ f.1) edges.reverse

/-- The leg renumbering applied to the remaining edges of a traced tensor. -/
def updListTrace (t1 : Int) (ax12 : List Int) (edges : List (Int × Int × Int)) :
    List (Int × Int × Int) :=
  edges.map (fun ed =>
    if ed.2.2 = t1 then
      (ed.1, (ed.2.1 - ((ax12.filter (fun i => decide (i < ed.2.1))).length : Int), ed.2.2))
    else ed)

/-- The leg renumbering applied to the remaining edges after a tensordot of
tensors t1 and t2: legs of t1 shift down past the contracted axes, legs of
t2 append after the remaining legs of t1 and the edge re-points to t1. -/
def updListDot (t1 t2 lt1 : Int) (ax1 ax2 : List Int) (edges : List (Int × Int × Int)) :
    List (Int × Int × Int) :=
  edges.map (fun ed =>
    if ed.2.2 = t1 then
      (ed.1, (ed.2.1 - ((ax1.filter (fun i => decide (i < ed.2.1))).length : Int), ed.2.2))
    else if ed.2.2 = t2 then
      (ed.1, (ed.2.1 + lt1 - ((ax2.filter (fun i => decide (i < ed.2.1))).length : Int), t1))
    else ed)

/-- The main loop of _consume_edges: pop edge pairs in ascending key order;
a mismatched pair is a LabelingError; same-tensor pairs accumulate into a
trace, cross-tensor pairs accumulate into a tensordot executed once the next
pair belongs to a different tensor pair; a trace queued after a tensordot is
a LabelingError; the sentinel key 512 ends the loop. -/
def consumeLoop : Nat → List (Int × Int × Int) → List Bool → List Int → List Int →
    List (Int × (List Int × List Int)) →
    List ((Int × Int) × ((List Int × List Int) × (Bool × Bool))) → List Int →
    Except Err (List (Int × (List Int × List Int)) ×
      List ((Int × Int) × ((List Int × List Int) × (Bool × Bool))) ×
      List (Int × Int × Int) × List Bool × List Int)
  | 0, _, _, _, _, _, _, _ => .error errPop
  | _ + 1, [], _, _, _, _, _, _ => .error errPop
  | fuel + 1, e1 :: rest, cj, ax1, ax2, metaTr, metaDot, elim =>
    if e1.1 = 512 then .ok (metaTr, metaDot, rest, cj, elim)
    else
      match rest with
      | [] => .error errPop
      | e2 :: rest2 =>
        if e1.1 ≠ e2.1 then .error errNconMatch
        else
          let t1 := if e1.2.2 < e2.2.2 then e1.2.2 else e2.2.2
          let t2 := if e1.2.2 < e2.2.2 then e2.2.2 else e1.2.2
          let l1 := if e1.2.2 < e2.2.2 then e1.2.1 else e2.2.1
          let l2 := if e1.2.2 < e2.2.2 then e2.2.1 else e1.2.1
          let ax1b := ax1 ++ [l1]
          let ax2b := ax2 ++ [l2]
          match rest2 with
          | [] => .error errPop
          | f1 :: rest3 =>
            if f1.1 = 512 then
              if t1 = t2 then
                if metaDot ≠ [] then .error errNconOrder
                else
                  consumeLoop fuel (updListTrace t1 (ax1b ++ ax2b) (f1 :: rest3)) cj [] []
                    (metaTr ++ [(t1, (ax1b, ax2b))]) metaDot elim
              else
                consumeLoop fuel
                  (updListDot t1 t2 (((f1 :: rest3).filter (fun ed => ed.2.2 = t1)).length : Int)
                    ax1b ax2b (f1 :: rest3)) ((cj.set t1.toNat false).set t2.toNat false) [] []
                  metaTr
                  (metaDot ++ [((t1, t2), ((ax1b, ax2b),
                    (cj.getD t1.toNat false, cj.getD t2.toNat false)))])
                  (elim ++ [t2])
            else
              match rest3 with
              | [] => .error errPop
              | f2 :: rest4 =>
                if min f1.2.2 f2.2.2 ≠ t1 ∨ max f1.2.2 f2.2.2 ≠ t2 then
                  if t1 = t2 then
                    if metaDot ≠ [] then .error errNconOrder
                    else
                      consumeLoop fuel (updListTrace t1 (ax1b ++ ax2b) (f1 :: f2 :: rest4)) cj [] []
                        (metaTr ++ [(t1, (ax1b, ax2b))]) metaDot elim
                  else
                    consumeLoop fuel
                      (updListDot t1 t2
                        (((f1 :: f2 :: rest4).filter (fun ed => ed.2.2 = t1)).length : Int)
                        ax1b ax2b (f1 :: f2 :: rest4)) ((cj.set t1.toNat false).set t2.toNat false)
                      [] [] metaTr
                      (metaDot ++ [((t1, t2), ((ax1b, ax2b),
                        (cj.getD t1.toNat false, cj.getD t2.toNat false)))])
                      (elim ++ [t2])
                else
                  consumeLoop fuel (f1 :: f2 :: rest4) cj ax1b ax2b metaTr metaDot elim

/-- The outer-product loop of _consume_edges: tensors not reached by any
contraction are joined to the first remaining tensor by zero-axis tensordot
in encounter order. -/
def outerLoop (t1 : Int) : List Int → List (Int × Int × Int) → List Bool →
    List ((Int × Int) × ((List Int × List Int) × (Bool × Bool))) →
    (List (Int × Int × Int) × List Bool ×
     List ((Int × Int) × ((List Int × List Int) × (Bool × Bool))))
  | [], edges, cj, metaDot => (edges, cj, metaDot)
  | t2 :: rest, edges, cj, metaDot =>
    outerLoop t1 rest
      (edges.map (fun ed =>
        if ed.2.2 = t2 then
          (ed.1, (ed.2.1 + ((edges.filter (fun e => e.2.2 = t1)).length : Int), t1))
        else ed))
      ((cj.set t1.toNat false).set t2.toNat false)
      (metaDot ++ [((t1, t2), ((([] : List Int), ([] : List Int)),
        (cj.getD t1.toNat false, cj.getD t2.toNat false)))])

/-- Lexicographic order on full edge triples, the final sorted(edges) of
_consume_edges. -/
def edgeFullLe (e f : Int × Int × Int) : Prop :=
  e.1 < f.1 ∨ (e.1 = f.1 ∧ (e.2.1 < f.2.1 ∨ (e.2.1 = f.2.1 ∧ e.2.2 ≤ f.2.2)))

instance edgeFullLe_decidable : DecidableRel edgeFullLe := by
  intro e f
  unfold edgeFullLe
  infer_instance

/-- _consume_edges: the pair-consumption loop, the outer products over the
tensors never contracted, the repeated-outgoing-label check, and the final
transpose permutation (None when already in order). -/
def _consume_edges (queue : List (Int × Int × Int)) (cj : List Bool) :
    Except Err (List (Int × (List Int × List Int)) ×
      List ((Int × Int) × ((List Int × List Int) × (Bool × Bool))) ×
      (Int × (Option (List Int) × Bool))) :=
  match consumeLoop queue.length queue cj [] [] [] [] [] with
  | .error e => .error e
  | .ok (metaTr, metaDot, restEdges, cj2, elim) =>
    match (List.range cj.length).filter (fun i => decide (¬ ((i : Int)) ∈ elim)) with
    | [] => .error errPop
    | t1n :: rem2 =>
      let t1 : Int := (t1n : Int)
      let res := outerLoop t1 (rem2.map (fun i => (i : Int))) restEdges cj2 metaDot
      if ¬ (res.1.map (fun ed => ed.1)).Nodup then .error errNconRepeated
      else
        let axes := (List.insertionSort edgeFullLe res.1).map (fun ed => ed.2.1)
        .ok (metaTr, res.2.2,
          (t1, (if axes = (List.range axes.length).map (fun i => (i : Int)) then none
                else some axes,
            (res.2.1).getD t1.toNat false)))

/-- _meta_ncon: labels must lie in (-256, 256); the edge list with its
sentinel is sorted and consumed into trace, tensordot and transpose
commands. -/
def _meta_ncon (inds : List (List Int)) (conjs : Option (List Bool)) :
    Except Err (List (Int × (List Int × List Int)) ×
      List ((Int × Int) × ((List Int × List Int) × (Bool × Bool))) ×
      (Int × (Option (List Int) × Bool))) :=
  if ¬ ((flattenInds inds).all (fun x => decide (-256 < x ∧ x < 256))) then
    .error errNconRange
  else
    _consume_edges (ascEdges (buildEdges inds ++ [(512, (512, 512))]))
      (match conjs with
       | none => List.replicate inds.length false
       | some c => c)

/-- Execution of the queued traces of ncon. -/
def applyTraces : List Tensor → List (Int × (List Int × List Int)) → Except Err (List Tensor)
  | ts, [] => .ok ts
  | ts, (t, (ax1, ax2)) :: rest =>
    match trace (ts.getD t.toNat default) (ax1.map Int.toNat, ax2.map Int.toNat) with
    | .error e => .error e
    | .ok c => applyTraces (ts.set t.toNat c) rest

/-- Execution of the queued tensordots of ncon. -/
def applyDots : List Tensor →
    List ((Int × Int) × ((List Int × List Int) × (Bool × Bool))) → Except Err (List Tensor)
  | ts, [] => .ok ts
  | ts, ((t1, t2), ((ax1, ax2), cjp)) :: rest =>
    match tensordot (ts.getD t1.toNat default) (ts.getD t2.toNat default)
        (ax1.map Int.toNat, ax2.map Int.toNat) cjp with
    | .error e => .error e
    | .ok c => applyDots (ts.set t1.toNat c) rest

/-- ncon following the source: validate the lengths, plan with _meta_ncon,
then execute the traces, the tensordots, the final transpose and the final
conjugation. -/
def ncon (ts : List Tensor) (inds : List (List Int)) (conjs : Option (List Bool)) :
    Except Err Tensor :=
  if ts.length ≠ inds.length then .error errNconNum
  else if ¬ ((ts.zip inds).all (fun p => decide (p.1.ndim = p.2.length))) then
    .error errNconLegs
  else
    match _meta_ncon inds conjs with
    | .error e => .error e
    | .ok (metaTr, metaDot, (tfin, (axesOpt, toConj))) =>
      match applyTraces ts metaTr with
      | .error e => .error e
      | .ok ts2 =>
        match applyDots ts2 metaDot with
        | .error e => .error e
        | .ok ts3 =>
          let tn := ts3.getD tfin.toNat default
          let tn2 := match axesOpt with
            | none => tn
            | some ax => transposeT tn ax
          .ok (if toConj then tn2.conj else tn2)

/-! ### einsum -/

/-- The index alphabet of einsum, copied from the source. -/
def alphabet1 : List Char := "ABCDEFGHIJKLMNOPQRSTUWXYZabcdefghijklmnopqrstuvwxyz".toList

/-- The extended alphabet admitting the separator and the conjugation
marker. -/
def alphabet2 : List Char := alphabet1 ++ [',', '*']

/-- Split a character list at every occurrence of the two-character arrow
separator. -/
def splitArrow : List Char → List (List Char)
  | [] => [[]]
  | '-' :: '>' :: rest => [] :: splitArrow rest
  | c :: rest =>
    match splitArrow rest with
    | [] => [[c]]
    | s :: ss => (c :: s) :: ss

/-- Split a character list at every comma. -/
def splitComma : List Char → List (List Char)
  | [] => [[]]
  | ',' :: rest => [] :: splitComma rest
  | c :: rest =>
    match splitComma rest with
    | [] => [[c]]
    | s :: ss => (c :: s) :: ss

/-- The integer label the dictionary construction of einsum assigns to a
character: the comma maps to 0, output characters to the negation of their
output position, and contracted characters to their last position in the
contraction order plus one. -/
def einsumLabel (orderL : List Char) (sout : List Char) (v : Char) : Option Int :=
  if v = ',' then some 0
  else match sout.findIdx? (fun c => c = v) with
    | some i => some (-(i : Int))
    | none =>
      match (orderL.enum.filter (fun p => p.2 = v)).getLast? with
      | some p => some ((p.1 : Int) + 1)
      | none => none

/-- The parsing stage of einsum: subscripts and contraction order to the
integer index lists and conjugation flags handed to ncon; the operands are
never consulted here. -/
def einsumPlan (subscripts : String) (order : String) :
    Except Err (List (List Int) × List Bool) :=
  let cs := (subscripts.toList).filter (fun c => c ≠ ' ')
  let tmp := splitArrow cs
  if tmp.length = 1 ∨ tmp.length = 2 then
    let sin := tmp.getD 0 []
    let sout := if tmp.length = 2 then tmp.getD 1 [] else []
    if ¬ (sout.all (fun v => decide (v ∈ alphabet1))) ∨
        ¬ (sin.all (fun v => decide (v ∈ alphabet2))) then .error errEinsumAlpha
    else
      let conjs := (splitComma sin).map (fun ss => decide ('*' ∈ ss))
      let sin2 := sin.filter (fun c => c ≠ '*')
      let sinLetters := sin2.filter (fun c => c ≠ ',')
      let sout2 := if sout = [] then sinLetters.filter (fun v => sin2.count v = 1) else sout
      if sout ≠ [] ∧ ¬ sout.Nodup then .error errEinsumRepeat
      else
        let orderL := if order = "Alphabetic" ∨ order = "alphabetic" then
            List.insertionSort (fun x y : Char => x ≤ y)
              (sinLetters.filter (fun v => decide (1 < sin2.count v)))
          else order.toList
        if ¬ (sin2.all (fun v => (einsumLabel orderL sout2 v).isSome)) then
          .error errEinsumOrder
        else
          .ok ((splitComma sin2).map (fun ss =>
            ss.map (fun v => (einsumLabel orderL sout2 v).getD 0)), conjs)
  else .error errEinsumSep

/-- einsum: the symbolic front-end; parses the subscripts and delegates to
ncon. -/
def einsum (subscripts : String) (operands : List Tensor) (order : String) :
    Except Err Tensor :=
  match einsumPlan subscripts order with
  | .error e => .error e
  | .ok r => ncon operands r.1 (some r.2)

/-! ### Claim theorems for the planner -/

/-- One-leg vector with outgoing signature, used in planner witnesses. -/
def vP : Tensor :=
  { nsym := 1, s := [1], n := [0], t := [[[0]]], D := [[2]], data := [0, 0], ferm := .off }

/-- C10: ncon fails with its range LabelingError when any label lies outside
the open interval (-256, 256), even for an otherwise well-formed call. -/
theorem ncon_label_range (ts : List Tensor) (inds : List (List Int))
    (conjs : Option (List Bool)) (hlen : ts.length = inds.length)
    (hndim : ∀ p ∈ ts.zip inds, p.1.ndim = p.2.length)
    (hx : ∃ x ∈ flattenInds inds, x ≤ -256 ∨ 256 ≤ x) :
    ncon ts inds conjs = .error errNconRange := by
  unfold ncon
  rw [if_neg (fun hc => hc hlen)]
  rw [if_neg (by
    simp only [not_not, List.all_eq_true]
    intro p hp
    simp only [decide_eq_true_eq]
    exact hndim p hp)]
  have hm : _meta_ncon inds conjs = .error errNconRange := by
    unfold _meta_ncon
    rw [if_pos (by
      intro hall
      rw [List.all_eq_true] at hall
      obtain ⟨x, hxm, hxr⟩ := hx
      have h2 := hall x hxm
      simp only [decide_eq_true_eq] at h2
      omega)]
  rw [hm]

theorem ncon_label_range_witness :
    (([vP] : List Tensor).length = [[(300 : Int)]].length ∧
      (∀ p ∈ ([vP].zip [[(300 : Int)]]), p.1.ndim = p.2.length) ∧
      (∃ x ∈ flattenInds [[(300 : Int)]], x ≤ -256 ∨ 256 ≤ x)) ∧
    ncon [vP] [[(300 : Int)]] none = .error errNconRange :=
  ⟨⟨by decide, by decide, by decide⟩,
    ncon_label_range [vP] [[(300 : Int)]] none (by decide) (by decide) (by decide)⟩

/-- C7: the symbolic front-end with a leading conjugation marker agrees with
the direct contraction: einsum of *ij,jh->ih on two matrices equals
tensordot of the conjugated first operand with the second over the leg pair
(1, 0). -/
theorem einsum_conj_matmul (A B : Tensor) (hA : A.ndim = 2) (hB : B.ndim = 2) :
    einsum "*ij,jh->ih" [A, B] "Alphabetic" =
      tensordot (A.conj) B ([1], [0]) (false, false) := by
  have hplan : einsumPlan "*ij,jh->ih" "Alphabetic" =
      .ok ([[0, 2], [2, -1]], [true, false]) := by decide
  have h1 : einsum "*ij,jh->ih" [A, B] "Alphabetic" =
      ncon [A, B] [[0, 2], [2, -1]] (some [true, false]) := by
    unfold einsum
    rw [hplan]
  rw [h1]
  unfold ncon
  have hl : ¬ (([A, B] : List Tensor).length ≠ ([[0, 2], [2, -1]] : List (List Int)).length) := by
    simp
  rw [if_neg hl]
  rw [if_neg (by
    simp only [not_not, List.all_eq_true]
    intro p hp
    simp only [List.zip_cons_cons, List.zip_nil_right, List.mem_cons,
      List.not_mem_nil, or_false] at hp
    rcases hp with rfl | rfl
    · simp [hA]
    · simp [hB])]
  have hmeta : _meta_ncon [[0, 2], [2, -1]] (some [true, false]) =
      .ok ([], [((0, 1), (([1], [0]), (true, false)))], (0, (none, false))) := by rfl
  rw [hmeta]
  have hX : tensordot A B ([1], [0]) (true, false) =
      tensordot (A.conj) B ([1], [0]) (false, false) := rfl
  cases hc : tensordot (A.conj) B ([1], [0]) (false, false) with
  | error e =>
    simp only [applyTraces, applyDots, List.getD_cons_zero, List.map_cons, List.map_nil]
    rw [show ([Int.toNat 1], [Int.toNat 0]) = (([1], [0]) : List Nat × List Nat) from rfl]
    rw [show (List.getD [A, B] (Int.toNat 0) default) = A from rfl,
      show (List.getD [A, B] (Int.toNat 1) default) = B from rfl]
    rw [hX, hc]
  | ok c =>
    simp only [applyTraces, applyDots, List.getD_cons_zero, List.map_cons, List.map_nil]
    rw [show ([Int.toNat 1], [Int.toNat 0]) = (([1], [0]) : List Nat × List Nat) from rfl]
    rw [show (List.getD [A, B] (Int.toNat 0) default) = A from rfl,
      show (List.getD [A, B] (Int.toNat 1) default) = B from rfl]
    rw [hX, hc]
    simp [applyDots]

/-- Two-leg operand whose conjugate contracts with bT1. -/
def A7 : Tensor :=
  { nsym := 1, s := [-1, 1], n := [0], t := [[[0], [0]]], D := [[2, 3]],
    data := List.replicate 6 0, ferm := .off }

theorem einsum_conj_matmul_witness :
    (A7.ndim = 2 ∧ bT1.ndim = 2 ∧
      (einsum "*ij,jh->ih" [A7, bT1] "Alphabetic").isOk = true) ∧
    einsum "*ij,jh->ih" [A7, bT1] "Alphabetic" =
      tensordot (A7.conj) bT1 ([1], [0]) (false, false) :=
  ⟨⟨by decide, by decide, by decide⟩, einsum_conj_matmul A7 bT1 (by decide) (by decide)⟩

end Yastn
